import Mathlib

/-!
Shallow embedding of the rapid-qoi codec (src/src/encode.rs, src/src/decode.rs).

The crate's current `lib.rs` (defining `Colors`, the `Pixel` trait, `Var`,
the `QOI_OP_*` constants and `QOI_PADDING`) is not present in the sources;
only a legacy pre-freeze variant of `lib.rs` is.  Definitions for those
missing pieces are modelled from the spec and marked `Modelled from the
spec:` in their doc comments.  Everything else is translated from the
source files.

Machine integers are embedded as `Nat` with explicit `% 256` where u8
wrap-around matters.  Rust panics (out-of-range `split_at_mut`, the
`unreachable!()` arm of `encode_range`) are modelled by a distinguished
result constructor `PRes.fault`.
-/

/-- Result of a Rust function that can also abort with a panic
(`PRes.fault` models the panic). -/
inductive PRes (ε : Type) (α : Type) where
  | ok (a : α)
  | err (e : ε)
  | fault
  deriving DecidableEq, Repr

/-- `Result::map` on the success value; errors and panics pass through. -/
def PRes.map {ε α β : Type} (f : α → β) : PRes ε α → PRes ε β
  | .ok a => .ok (f a)
  | .err e => .err e
  | .fault => .fault

/-- Encoding errors, from `src/src/encode.rs`. -/
inductive EncodeError where
  | NotEnoughPixelData
  | OutputIsTooSmall
  deriving DecidableEq, Repr

/-- Decoding errors, from `src/src/decode.rs`. -/
inductive DecodeError where
  | NotEnoughData
  | InvalidMagic
  | InvalidChannelsValue
  | InvalidColorSpaceValue
  | OutputIsTooSmall
  deriving DecidableEq, Repr

/-- An RGBA pixel; channels are u8 values carried as `Nat`.
A 3-channel `[u8; 3]` pixel is carried with `a = 255` (the spec's
convention: with alpha absent, alpha is a constant 255 everywhere it
participates). -/
structure Px where
  r : Nat
  g : Nat
  b : Nat
  a : Nat
  deriving DecidableEq, Repr

/-- `Pixel::new()`: the all-zero pixel (initial recent-colors table slot). -/
def Px.new : Px := ⟨0, 0, 0, 0⟩

/-- `Pixel::new_opaque()`: the initial previous pixel (0,0,0,255). -/
def Px.newOpaque : Px := ⟨0, 0, 0, 255⟩

/-- u8 wrap-around addition. -/
def wadd (x y : Nat) : Nat := (x + y) % 256

/-- u8 wrap-around subtraction. -/
def wsub (x y : Nat) : Nat := (x % 256 + 256 - y % 256) % 256

/-- `[u8; N]::rgba()`: the pixel as 4 channels; for a 3-channel pixel the
alpha is 255.  Modelled from the spec: with alpha absent, alpha is a
constant 255. -/
def Px.rgba (alpha : Bool) (p : Px) : Px :=
  if alpha then p else ⟨p.r, p.g, p.b, 255⟩

/-- Modelled from the spec: the recent-colors hash
`(R*3 + G*5 + B*7 + A*11) mod 64` evaluated with unsigned 8-bit
wrap-around multiplication and addition before the mod. -/
def Px.hash (p : Px) : Nat :=
  (((((p.r * 3) % 256 + (p.g * 5) % 256) % 256 + (p.b * 7) % 256) % 256
      + (p.a * 11) % 256) % 256) % 64

/-- `Pixel::add_rgb` from the missing lib.rs.  Modelled from the spec:
channel setters with wrap-around add; alpha untouched. -/
def Px.addRgb (p : Px) (vr vg vb : Nat) : Px :=
  ⟨wadd p.r vr, wadd p.g vg, wadd p.b vb, p.a⟩

/-- `Pixel::set_rgb`: replace the color channels, keep alpha. -/
def Px.setRgb (p : Px) (r g b : Nat) : Px := ⟨r, g, b, p.a⟩

/-- `Pixel::set_rgba`: replace all four channels. -/
def Px.setRgba (r g b a : Nat) : Px := ⟨r, g, b, a⟩

/-- Pixel equality as Rust's `*px == *px_prev` on `[u8; N]`: for N = 3 only
the color channels are compared. -/
def pxEq (alpha : Bool) (p q : Px) : Prop := p.rgba alpha = q.rgba alpha

instance (alpha : Bool) (p q : Px) : Decidable (pxEq alpha p q) := by
  unfold pxEq; infer_instance

/-- The 64-slot recent-colors table.  Only indices below 64 are ever read
or written by the codec. -/
def Table : Type := Nat → Px

/-- Table update at one slot. -/
def tset (t : Table) (i : Nat) (p : Px) : Table :=
  fun j => if j = i then p else t j

/-- Encoder initial table: `[[0; 4]; 64]`. -/
def encInit : Table := fun _ => Px.new

/-- Decoder initial table: `[Pixel::new(); 64]`; for N = 3 the 3-byte
all-zero entry is carried with the conventional alpha 255. -/
def decInit (alpha : Bool) : Table :=
  fun _ => if alpha then Px.new else ⟨0, 0, 0, 255⟩

/-- `Colors`, from the match arms of `Qoi::encode` / `Qoi::decode_header`. -/
inductive Colors where
  | Srgb
  | SrgbLinA
  | Rgb
  | Rgba
  deriving DecidableEq, Repr

/-- Modelled from the spec: `Colors::has_alpha` of the missing lib.rs
(channel count 3 or 4; alpha present exactly for the 4-channel variants,
matching the channels byte written by `Qoi::encode`). -/
def Colors.has_alpha : Colors → Bool
  | .Srgb => false
  | .Rgb => false
  | .SrgbLinA => true
  | .Rgba => true

/-- Modelled from the spec: `Colors::channels` of the missing lib.rs. -/
def Colors.channels : Colors → Nat
  | .Srgb => 3
  | .Rgb => 3
  | .SrgbLinA => 4
  | .Rgba => 4

/-- The (channels, color-space) header bytes written by `Qoi::encode`
(src/src/encode.rs lines 46-67). -/
def Colors.headerBytes : Colors → Nat × Nat
  | .Rgb => (3, 1)
  | .Rgba => (4, 1)
  | .Srgb => (3, 0)
  | .SrgbLinA => (4, 0)

/-- QOI image descriptor. -/
structure Qoi where
  width : Nat
  height : Nat
  colors : Colors
  deriving DecidableEq, Repr

/-- `QOI_HEADER_SIZE`. -/
def QOI_HEADER_SIZE : Nat := 14

/-- Modelled from the spec: `QOI_PADDING` of the missing current lib.rs is
the 8-byte end marker length (the legacy lib.rs's value 4 belongs to the
pre-freeze codec that encode.rs/decode.rs do not use). -/
def QOI_PADDING : Nat := 8

/-- `u32::from_be_bytes(*b"qoif")`. -/
def QOI_MAGIC : Nat := 0x716F6966

/-- The four magic bytes `qoif`. -/
def qoiMagicBytes : List Nat := [0x71, 0x6F, 0x69, 0x66]

/-- Big-endian bytes of a u32. -/
def be32 (w : Nat) : List Nat :=
  [w / 16777216 % 256, w / 65536 % 256, w / 256 % 256, w % 256]

/-- Read a big-endian u32 at offset `i` of a byte list. -/
def readBe32 (bytes : List Nat) (i : Nat) : Nat :=
  bytes.getD i 0 * 16777216 + bytes.getD (i + 1) 0 * 65536
    + bytes.getD (i + 2) 0 * 256 + bytes.getD (i + 3) 0

/-- Modelled from the spec: `Var::diff` of the missing lib.rs.  DIFF fires
when each biased delta `(d + 2) mod 256` fits 2 bits; the chunk byte is
`0x40 | (dr+2)<<4 | (dg+2)<<2 | (db+2)`. -/
def diffByte (vr vg vb : Nat) : Option Nat :=
  let x := (vr + 2) % 256
  let y := (vg + 2) % 256
  let z := (vb + 2) % 256
  if x < 4 ∧ y < 4 ∧ z < 4 then some (0x40 + x * 16 + y * 4 + z) else none

/-- Modelled from the spec: `Var::luma` of the missing lib.rs.  LUMA fires
when `(dg+32) mod 256` fits 6 bits and `(dr-dg+8) mod 256`,
`(db-dg+8) mod 256` fit 4 bits; the bytes are `0x80 | (dg+32)` and
`(dr-dg+8)<<4 | (db-dg+8)`. -/
def lumaBytes (vr vg vb : Nat) : Option (Nat × Nat) :=
  let gg := (vg + 32) % 256
  let rg := (wsub vr vg + 8) % 256
  let bg := (wsub vb vg + 8) % 256
  if gg < 64 ∧ rg < 16 ∧ bg < 16 then some (0x80 + gg, rg * 16 + bg) else none

/-- Split a raw byte buffer into `[u8; N]` pixels (`bytemuck::cast_slice`);
for N = 3 the conventional alpha 255 is attached.  Call sites guarantee
the length is divisible by N (`assert_eq!(pixels.len() % N, 0)`). -/
def readPixels : Bool → List Nat → List Px
  | true, r :: g :: b :: a :: rest => ⟨r, g, b, a⟩ :: readPixels true rest
  | false, r :: g :: b :: rest => ⟨r, g, b, 255⟩ :: readPixels false rest
  | _, _ => []

/-- Serialize pixels back to raw bytes (the decoder's pixel writes). -/
def writePixels : Bool → List Px → List Nat
  | true, p :: rest => p.r :: p.g :: p.b :: p.a :: writePixels true rest
  | false, p :: rest => p.r :: p.g :: p.b :: writePixels false rest
  | _, [] => []

/-- Prepend emitted bytes to an encoder result tuple. -/
def eprep (l : List Nat) (r : List Nat × Table × Px × Nat) :
    List Nat × Table × Px × Nat :=
  (l ++ r.1, r.2)

/-- Prepend decoded pixels to a decoder result tuple. -/
def dprep (l : List Px) (r : List Px × Table × Px × Nat × List Nat) :
    List Px × Table × Px × Nat × List Nat :=
  (l ++ r.1, r.2)

/-- The run flush of `Qoi::encode_range` (src/src/encode.rs lines 140-160):
no pending run emits nothing; a pending run of exactly 1 emits a one-byte
INDEX chunk addressing the previous pixel's slot, unless that slot is 0x35
and still all-zero, in which case a RUN chunk of length 1; a longer run
emits `QOI_OP_RUN | (run - 1)`. -/
def encFlush (alpha : Bool) (idx : Table) (prev : Px) (run : Nat) : List Nat :=
  if run = 0 then []
  else if run = 1 then
    if (prev.rgba alpha).hash = 0x35 ∧ idx 0x35 = Px.new then [0xC0]
    else [(prev.rgba alpha).hash]
  else [0xC0 + (run - 1)]

/-- The per-pixel chunk choice of `Qoi::encode_range` (src/src/encode.rs
lines 162-200): INDEX on a table hit (table unchanged), otherwise the
table slot is written and the chunk is RGBA (alpha changed, 4-channel
only), DIFF, LUMA or RGB in that priority.  Returns the chunk bytes and
the updated table. -/
def encChunkOp (alpha : Bool) (idx : Table) (prev px : Px) : List Nat × Table :=
  let h := (px.rgba alpha).hash
  if idx h = px.rgba alpha then ([h], idx)
  else
    let idx' := tset idx h (px.rgba alpha)
    if alpha = true ∧ prev.a ≠ px.a then ([0xFF, px.r, px.g, px.b, px.a], idx')
    else
      let vr := wsub px.r prev.r
      let vg := wsub px.g prev.g
      let vb := wsub px.b prev.b
      match diffByte vr vg vb with
      | some d => ([d], idx')
      | none =>
        match lumaBytes vr vg vb with
        | some (lu, ma) => ([lu, ma], idx')
        | none => ([0xFE, px.r, px.g, px.b], idx')

/-- `Qoi::encode_range` (src/src/encode.rs lines 108-224), embedded over a
pixel list.  `cap` is the length of the remaining output slice `rest`;
the returned tuple is (bytes written, index, px_prev, run) — the final
values of the three `&mut` state arguments alongside the output.
The `unreachable!()` arm (output slice shorter than 5 bytes after the run
flush) is `PRes.fault`. -/
def Qoi.encode_range (alpha : Bool) :
    Table → Px → Nat → Nat → List Px → PRes EncodeError (List Nat × Table × Px × Nat)
  | idx, prev, run, _, [] => .ok ([], idx, prev, run)
  | idx, prev, run, cap, px :: tail =>
    if 7 < cap then
      if pxEq alpha px prev then
        if run = 61 ∨ tail = [] then
          (Qoi.encode_range alpha idx prev 0 (cap - 1) tail).map (eprep [0xC0 + run])
        else
          Qoi.encode_range alpha idx prev (run + 1) cap tail
      else
        let fb := encFlush alpha idx prev run
        let cap1 := cap - fb.length
        if cap1 < 5 then .fault
        else
          let c := encChunkOp alpha idx prev px
          (Qoi.encode_range alpha c.2 px 0 (cap1 - c.1.length) tail).map
            (eprep (fb ++ c.1))
    else .err .OutputIsTooSmall

/-- The 8-byte end marker written by `Qoi::encode`:
`QOI_PADDING - 1` zero bytes then a single 1. -/
def endMarker : List Nat := List.replicate (QOI_PADDING - 1) 0 ++ [1]

/-- `Qoi::encoded_size_limit` (src/src/encode.rs lines 229-233). -/
def Qoi.encoded_size_limit (q : Qoi) : Nat :=
  q.width * q.height * (cond q.colors.has_alpha 1 0 + 4)
    + QOI_HEADER_SIZE + QOI_PADDING

/-- `Qoi::decoded_size` (src/src/decode.rs lines 59-61). -/
def Qoi.decoded_size (q : Qoi) : Nat :=
  q.width * q.height * q.colors.channels

/-- `Qoi::encode` (src/src/encode.rs lines 37-104).  On success returns the
whole output buffer (header, body, end marker, untouched tail) together
with the written size. -/
def Qoi.encode (q : Qoi) (pixels output : List Nat) :
    PRes EncodeError (List Nat × Nat) :=
  if output.length ≤ QOI_HEADER_SIZE then .err .OutputIsTooSmall
  else
    let hb := q.colors.headerBytes
    let header := qoiMagicBytes ++ be32 q.width ++ be32 q.height ++ [hb.1, hb.2]
    let px_len := q.width * q.height * hb.1
    if px_len ≤ pixels.length then
      match Qoi.encode_range q.colors.has_alpha encInit Px.newOpaque 0
          (output.length - QOI_HEADER_SIZE)
          (readPixels q.colors.has_alpha (pixels.take px_len)) with
      | .ok (body, _, _, _) =>
        if output.length < body.length + QOI_PADDING + QOI_HEADER_SIZE then
          .err .OutputIsTooSmall
        else
          .ok (header ++ body ++ endMarker
                ++ output.drop (QOI_HEADER_SIZE + body.length + QOI_PADDING),
               body.length + QOI_PADDING + QOI_HEADER_SIZE)
      | .err e => .err e
      | .fault => .fault
    else .err .NotEnoughPixelData

/-- `Qoi::decode_header` (src/src/decode.rs lines 65-93).  The ordered
match on (channels byte, color-space byte) is rendered as an if-chain in
source order. -/
def Qoi.decode_header (bytes : List Nat) : PRes DecodeError Qoi :=
  if bytes.length < QOI_HEADER_SIZE then .err .NotEnoughData
  else if readBe32 bytes 0 ≠ QOI_MAGIC then .err .InvalidMagic
  else
    let w := readBe32 bytes 4
    let h := readBe32 bytes 8
    let channels := bytes.getD 12 0
    let colors := bytes.getD 13 0
    if channels = 3 ∧ colors = 0 then .ok ⟨w, h, .Srgb⟩
    else if channels = 4 ∧ colors = 0 then .ok ⟨w, h, .SrgbLinA⟩
    else if channels = 3 ∧ colors = 1 then .ok ⟨w, h, .Rgb⟩
    else if channels = 4 ∧ colors = 1 then .ok ⟨w, h, .Rgba⟩
    else if colors = 0 ∨ colors = 1 then .err .InvalidChannelsValue
    else .err .InvalidColorSpaceValue

/-- The loop of `Qoi::decode_range` (src/src/decode.rs lines 193-291).
`n` is the number of remaining `[u8; N]` output slots; the result tuple is
(pixels written, index, px, run, remaining bytes).  A RUN chunk whose
count exceeds the remaining slots is `pixels.split_at_mut(run)` out of
bounds: `PRes.fault`. -/
def decodeLoop (alpha : Bool) :
    Table → Px → Nat → List Nat → PRes DecodeError (List Px × Table × Px × Nat × List Nat)
  | idx, px, 0, bytes => .ok ([], idx, px, 0, bytes)
  | _, _, _ + 1, [] => .err .NotEnoughData
  | idx, px, n + 1, b1 :: rest =>
    if b1 < 0x40 then
      let px' := idx b1
      (decodeLoop alpha idx px' n rest).map (dprep [px'])
    else if b1 < 0x80 then
      let px' := px.addRgb (wsub (b1 / 16 % 4) 2) (wsub (b1 / 4 % 4) 2)
        (wsub (b1 % 4) 2)
      (decodeLoop alpha (tset idx (px'.rgba alpha).hash px') px' n rest).map
        (dprep [px'])
    else if b1 < 0xC0 then
      match rest with
      | b2 :: rest2 =>
        let vg := wsub (b1 % 64) 32
        let vr := wadd (wsub (b2 / 16 % 16) 8) vg
        let vb := wadd (wsub (b2 % 16) 8) vg
        let px' := px.addRgb vr vg vb
        (decodeLoop alpha (tset idx (px'.rgba alpha).hash px') px' n rest2).map
          (dprep [px'])
      | [] => .err .NotEnoughData
    else if b1 = 0xFE then
      match rest with
      | b2 :: b3 :: b4 :: rest2 =>
        let px' := px.setRgb b2 b3 b4
        (decodeLoop alpha (tset idx (px'.rgba alpha).hash px') px' n rest2).map
          (dprep [px'])
      | _ => .err .NotEnoughData
    else if b1 = 0xFF then
      match rest with
      | b2 :: b3 :: b4 :: b5 :: rest2 =>
        let px' := if alpha then Px.setRgba b2 b3 b4 b5 else px.setRgb b2 b3 b4
        (decodeLoop alpha (tset idx (px'.rgba alpha).hash px') px' n rest2).map
          (dprep [px'])
      | _ => .err .NotEnoughData
    else if b1 ≤ 0xFD then
      let v := b1 % 64
      if v ≤ n then
        if n - v = 0 then .ok (px :: List.replicate v px, idx, px, v - v, rest)
        else (decodeLoop alpha idx px (n - v) rest).map
          (dprep (px :: List.replicate v px))
      else .fault
    else .err .NotEnoughData
  termination_by _ _ n _ => n
  decreasing_by all_goals omega

/-- `Qoi::decode_range` (src/src/decode.rs lines 151-296): the pending-run
preamble (which clamps with `min`) followed by the loop. -/
def Qoi.decode_range (alpha : Bool) (idx : Table) (ppx : Px) (prun : Nat)
    (bytes : List Nat) (n : Nat) :
    PRes DecodeError (List Px × Table × Px × Nat × List Nat) :=
  if 0 < prun then
    let k := min prun n
    if n - k = 0 then .ok (List.replicate k ppx, idx, ppx, prun - k, bytes)
    else (decodeLoop alpha idx ppx (n - k) bytes).map (dprep (List.replicate k ppx))
  else decodeLoop alpha idx ppx n bytes

/-- `Qoi::decode_skip_header` (src/src/decode.rs lines 114-147).  `bytes`
excludes the header; on success returns the output buffer with the first
`decoded_size` bytes replaced by the decoded pixels. -/
def Qoi.decode_skip_header (q : Qoi) (bytes output : List Nat) :
    PRes DecodeError (List Nat) :=
  if q.width = 0 ∨ q.height = 0 then .ok output
  else
    let px_len := q.decoded_size
    if output.length < px_len then .err .OutputIsTooSmall
    else
      match Qoi.decode_range q.colors.has_alpha (decInit q.colors.has_alpha)
          Px.newOpaque 0 bytes (px_len / q.colors.channels) with
      | .ok (outs, _, _, _, _) =>
        .ok (writePixels q.colors.has_alpha outs ++ output.drop px_len)
      | .err e => .err e
      | .fault => .fault

/-- `Qoi::decode` (src/src/decode.rs lines 101-105). -/
def Qoi.decode (bytes output : List Nat) : PRes DecodeError (Qoi × List Nat) :=
  match Qoi.decode_header bytes with
  | .ok q =>
    match q.decode_skip_header (bytes.drop QOI_HEADER_SIZE) output with
    | .ok out => .ok (q, out)
    | .err e => .err e
    | .fault => .fault
  | .err e => .err e
  | .fault => .fault

/-- All four channels are in u8 range. -/
def PxV (p : Px) : Prop := p.r < 256 ∧ p.g < 256 ∧ p.b < 256 ∧ p.a < 256

/-- The alpha convention for 3-channel pixels: alpha is the constant 255. -/
def PxA (alpha : Bool) (p : Px) : Prop := alpha = false → p.a = 255

/-- The encoder table (always 4-channel slots) and the decoder table
(N-channel slots) agree: each decoder slot is the `rgba` view of the
encoder slot. -/
def TableRel (alpha : Bool) (e d : Table) : Prop :=
  ∀ i < 64, d i = (e i).rgba alpha

/-- Reachable-state invariant of the encoder: the previous pixel's table
slot holds the previous pixel, except in the initial segment where no
pixel has been emitted yet (px_prev is still (0,0,0,255) and slot 0x35 is
still the all-zero entry). -/
def EncPrevInv (alpha : Bool) (e : Table) (prev : Px) : Prop :=
  e (prev.rgba alpha).hash = prev.rgba alpha ∨
    (prev = Px.newOpaque ∧ e 0x35 = Px.new)

/-! ## Helper lemmas -/

theorem PRes.map_eq_ok {ε α β : Type} (f : α → β) (r : PRes ε α) (b : β)
    (h : r.map f = .ok b) : ∃ a, r = .ok a ∧ b = f a := by
  cases r with
  | ok a => exact ⟨a, rfl, by cases h; rfl⟩
  | err e => cases h
  | fault => cases h

theorem PRes.ok_map {ε α β : Type} (f : α → β) (a : α) :
    (PRes.ok (ε := ε) a).map f = .ok (f a) := rfl

theorem decodeLoop_zero (alpha : Bool) (idx : Table) (px : Px) (bytes : List Nat) :
    decodeLoop alpha idx px 0 bytes = .ok ([], idx, px, 0, bytes) := by
  rw [decodeLoop]

theorem decodeLoop_nil (alpha : Bool) (idx : Table) (px : Px) (n : Nat) :
    decodeLoop alpha idx px (n + 1) [] = .err .NotEnoughData := by
  rw [decodeLoop]

theorem decodeLoop_index (alpha : Bool) (idx : Table) (px : Px) (n b1 : Nat)
    (rest : List Nat) (h : b1 < 0x40) :
    decodeLoop alpha idx px (n + 1) (b1 :: rest) =
      (decodeLoop alpha idx (idx b1) n rest).map (dprep [idx b1]) := by
  rcases rest with _ | ⟨b2, rest⟩ <;> rw [decodeLoop] <;> split_ifs <;>
    first | rfl | omega

theorem decodeLoop_diff (alpha : Bool) (idx : Table) (px : Px) (n b1 : Nat)
    (rest : List Nat) (h1 : 0x40 ≤ b1) (h2 : b1 < 0x80) :
    decodeLoop alpha idx px (n + 1) (b1 :: rest) =
      (let px' := px.addRgb (wsub (b1 / 16 % 4) 2) (wsub (b1 / 4 % 4) 2)
        (wsub (b1 % 4) 2)
      (decodeLoop alpha (tset idx (px'.rgba alpha).hash px') px' n rest).map
        (dprep [px'])) := by
  rcases rest with _ | ⟨b2, rest⟩ <;> rw [decodeLoop] <;> split_ifs <;>
    first | rfl | omega

theorem decodeLoop_luma (alpha : Bool) (idx : Table) (px : Px) (n b1 b2 : Nat)
    (rest : List Nat) (h1 : 0x80 ≤ b1) (h2 : b1 < 0xC0) :
    decodeLoop alpha idx px (n + 1) (b1 :: b2 :: rest) =
      (let px' := px.addRgb (wadd (wsub (b2 / 16 % 16) 8) (wsub (b1 % 64) 32))
        (wsub (b1 % 64) 32) (wadd (wsub (b2 % 16) 8) (wsub (b1 % 64) 32))
      (decodeLoop alpha (tset idx (px'.rgba alpha).hash px') px' n rest).map
        (dprep [px'])) := by
  rw [decodeLoop, if_neg (by omega), if_neg (by omega), if_pos h2]

theorem decodeLoop_luma_short (alpha : Bool) (idx : Table) (px : Px) (n b1 : Nat)
    (h1 : 0x80 ≤ b1) (h2 : b1 < 0xC0) :
    decodeLoop alpha idx px (n + 1) [b1] = .err .NotEnoughData := by
  rw [decodeLoop] <;> split_ifs <;> first | rfl | omega

theorem decodeLoop_rgb (alpha : Bool) (idx : Table) (px : Px) (n b2 b3 b4 : Nat)
    (rest : List Nat) :
    decodeLoop alpha idx px (n + 1) (0xFE :: b2 :: b3 :: b4 :: rest) =
      (let px' := px.setRgb b2 b3 b4
      (decodeLoop alpha (tset idx (px'.rgba alpha).hash px') px' n rest).map
        (dprep [px'])) := by
  rw [decodeLoop] <;> split_ifs <;> first | rfl | omega

theorem decodeLoop_rgba (alpha : Bool) (idx : Table) (px : Px) (n b2 b3 b4 b5 : Nat)
    (rest : List Nat) :
    decodeLoop alpha idx px (n + 1) (0xFF :: b2 :: b3 :: b4 :: b5 :: rest) =
      (let px' := if alpha then Px.setRgba b2 b3 b4 b5 else px.setRgb b2 b3 b4
      (decodeLoop alpha (tset idx (px'.rgba alpha).hash px') px' n rest).map
        (dprep [px'])) := by
  rw [decodeLoop] <;> split_ifs <;> first | rfl | omega

theorem decodeLoop_run (alpha : Bool) (idx : Table) (px : Px) (n b1 : Nat)
    (rest : List Nat) (h1 : 0xC0 ≤ b1) (h2 : b1 ≤ 0xFD) (h3 : b1 % 64 ≤ n) :
    decodeLoop alpha idx px (n + 1) (b1 :: rest) =
      (decodeLoop alpha idx px (n - b1 % 64) rest).map
        (dprep (px :: List.replicate (b1 % 64) px)) := by
  rcases rest with _ | ⟨b2, rest⟩ <;>
    (rw [decodeLoop, if_neg (by omega), if_neg (by omega), if_neg (by omega),
      if_neg (by omega), if_neg (by omega), if_pos h2]
     simp only [if_pos h3]
     by_cases h0 : n - b1 % 64 = 0
     · rw [if_pos h0, h0, decodeLoop_zero]
       simp [PRes.map, dprep]
     · rw [if_neg h0])

theorem decodeLoop_run_fault (alpha : Bool) (idx : Table) (px : Px) (n b1 : Nat)
    (rest : List Nat) (h1 : 0xC0 ≤ b1) (h2 : b1 ≤ 0xFD) (h3 : n < b1 % 64) :
    decodeLoop alpha idx px (n + 1) (b1 :: rest) = .fault := by
  rcases rest with _ | ⟨b2, rest⟩ <;>
    (rw [decodeLoop, if_neg (by omega), if_neg (by omega), if_neg (by omega),
      if_neg (by omega), if_neg (by omega), if_pos h2]
     simp only [if_neg (show ¬ b1 % 64 ≤ n by omega)])

theorem encode_range_nil (alpha : Bool) (idx : Table) (prev : Px) (run cap : Nat) :
    Qoi.encode_range alpha idx prev run cap [] = .ok ([], idx, prev, run) := by
  rw [Qoi.encode_range]

theorem encode_range_small (alpha : Bool) (idx : Table) (prev : Px) (run cap : Nat)
    (px : Px) (tail : List Px) (h : ¬ 7 < cap) :
    Qoi.encode_range alpha idx prev run cap (px :: tail) = .err .OutputIsTooSmall := by
  rw [Qoi.encode_range, if_neg h]

theorem encode_range_run_emit (alpha : Bool) (idx : Table) (prev : Px) (run cap : Nat)
    (px : Px) (tail : List Px) (h1 : 7 < cap) (h2 : pxEq alpha px prev)
    (h3 : run = 61 ∨ tail = []) :
    Qoi.encode_range alpha idx prev run cap (px :: tail) =
      (Qoi.encode_range alpha idx prev 0 (cap - 1) tail).map (eprep [0xC0 + run]) := by
  rw [Qoi.encode_range, if_pos h1, if_pos h2, if_pos h3]

theorem encode_range_run_acc (alpha : Bool) (idx : Table) (prev : Px) (run cap : Nat)
    (px : Px) (tail : List Px) (h1 : 7 < cap) (h2 : pxEq alpha px prev)
    (h3 : ¬ (run = 61 ∨ tail = [])) :
    Qoi.encode_range alpha idx prev run cap (px :: tail) =
      Qoi.encode_range alpha idx prev (run + 1) cap tail := by
  rw [Qoi.encode_range, if_pos h1, if_pos h2, if_neg h3]

theorem encode_range_fault (alpha : Bool) (idx : Table) (prev : Px) (run cap : Nat)
    (px : Px) (tail : List Px) (h1 : 7 < cap) (h2 : ¬ pxEq alpha px prev)
    (h3 : cap - (encFlush alpha idx prev run).length < 5) :
    Qoi.encode_range alpha idx prev run cap (px :: tail) = .fault := by
  rw [Qoi.encode_range, if_pos h1, if_neg h2, if_pos h3]

theorem encode_range_chunk (alpha : Bool) (idx : Table) (prev : Px) (run cap : Nat)
    (px : Px) (tail : List Px) (h1 : 7 < cap) (h2 : ¬ pxEq alpha px prev)
    (h3 : ¬ (cap - (encFlush alpha idx prev run).length < 5)) :
    Qoi.encode_range alpha idx prev run cap (px :: tail) =
      (Qoi.encode_range alpha (encChunkOp alpha idx prev px).2 px 0
        (cap - (encFlush alpha idx prev run).length
          - (encChunkOp alpha idx prev px).1.length) tail).map
        (eprep (encFlush alpha idx prev run ++ (encChunkOp alpha idx prev px).1)) := by
  rw [Qoi.encode_range, if_pos h1, if_neg h2, if_neg h3]

/-! ## Claim theorems -/

/-- C10: for a descriptor with zero width or height, `Qoi::decode_skip_header`
returns `Ok(())` at once for every byte and output slice: the output length
is never checked and the output is unchanged. -/
theorem c10_zero_area (q : Qoi) (bytes output : List Nat)
    (h : q.width = 0 ∨ q.height = 0) :
    q.decode_skip_header bytes output = .ok output := by
  unfold Qoi.decode_skip_header
  rw [if_pos h]

theorem c10_zero_area_w :
    ((0 : Nat) = 0 ∨ (5 : Nat) = 0) ∧
      Qoi.decode_skip_header ⟨0, 5, .Rgb⟩ [0xC0, 1, 2] [7, 8] = .ok [7, 8] :=
  ⟨Or.inl rfl, c10_zero_area ⟨0, 5, .Rgb⟩ [0xC0, 1, 2] [7, 8] (Or.inl rfl)⟩

/-- C6 counterexample: an input whose channels byte is 5 AND whose
color-space byte is 2 decodes to `InvalidColorSpaceValue`, not
`InvalidChannelsValue` — the claim's unconditional "whenever the channels
byte is not 3 or 4" is false. -/
theorem c6_counterexample :
    Qoi.decode_header [0x71, 0x6F, 0x69, 0x66, 0, 0, 0, 1, 0, 0, 0, 1, 5, 2] =
        .err .InvalidColorSpaceValue ∧
      Qoi.decode_header [0x71, 0x6F, 0x69, 0x66, 0, 0, 0, 1, 0, 0, 0, 1, 5, 2] ≠
        .err .InvalidChannelsValue := by
  decide

/-- C6 (amended): for at least 14 bytes with a `qoif` magic,
`InvalidChannelsValue` is returned when channels ∉ {3,4} and the
color-space byte is 0 or 1; `InvalidColorSpaceValue` is returned whenever
the color-space byte is neither 0 nor 1 (regardless of the channels
byte). -/
theorem c6_header_errors (bytes : List Nat) (h14 : 14 ≤ bytes.length)
    (hm : readBe32 bytes 0 = QOI_MAGIC) :
    (bytes.getD 12 0 ≠ 3 → bytes.getD 12 0 ≠ 4 →
      (bytes.getD 13 0 = 0 ∨ bytes.getD 13 0 = 1) →
      Qoi.decode_header bytes = .err .InvalidChannelsValue) ∧
    (bytes.getD 13 0 ≠ 0 → bytes.getD 13 0 ≠ 1 →
      Qoi.decode_header bytes = .err .InvalidColorSpaceValue) := by
  unfold Qoi.decode_header
  rw [if_neg (by simp only [QOI_HEADER_SIZE]; omega), if_neg (by simp [hm])]
  constructor
  · intro h3 h4 h01
    rw [if_neg (by tauto), if_neg (by tauto), if_neg (by tauto), if_neg (by tauto),
      if_pos h01]
  · intro h0 h1
    rw [if_neg (by tauto), if_neg (by tauto), if_neg (by tauto), if_neg (by tauto),
      if_neg (by tauto)]

theorem c6_header_errors_w :
    (14 ≤ ([0x71, 0x6F, 0x69, 0x66, 0, 0, 0, 1, 0, 0, 0, 1, 5, 0] : List Nat).length) ∧
      Qoi.decode_header [0x71, 0x6F, 0x69, 0x66, 0, 0, 0, 1, 0, 0, 0, 1, 5, 0] =
        .err .InvalidChannelsValue :=
  ⟨by decide,
    (c6_header_errors [0x71, 0x6F, 0x69, 0x66, 0, 0, 0, 1, 0, 0, 0, 1, 5, 0]
      (by decide) (by decide)).1 (by decide) (by decide) (Or.inl rfl)⟩

/-- C8: decoding an RGBA chunk (leading byte 0xFF) with a 3-channel
descriptor requires four following bytes, applies R, G, B, skips the
alpha byte, and behaves exactly like an RGB chunk (same pixel, same table
update, same continuation); with fewer than four following bytes it fails
with `NotEnoughData`. -/
theorem c8_rgba_as_rgb :
    (∀ (idx : Table) (px : Px) (n b2 b3 b4 b5 : Nat) (tail : List Nat),
      decodeLoop false idx px (n + 1) (0xFF :: b2 :: b3 :: b4 :: b5 :: tail) =
        decodeLoop false idx px (n + 1) (0xFE :: b2 :: b3 :: b4 :: tail)) ∧
    (∀ (idx : Table) (px : Px) (n : Nat) (s : List Nat), s.length ≤ 3 →
      decodeLoop false idx px (n + 1) (0xFF :: s) = .err .NotEnoughData) := by
  constructor
  · intro idx px n b2 b3 b4 b5 tail
    rw [decodeLoop_rgba, decodeLoop_rgb]
    simp
  · intro idx px n s hs
    rcases s with _ | ⟨a, _ | ⟨b, _ | ⟨c, _ | ⟨d, s⟩⟩⟩⟩
    · rw [decodeLoop]
      norm_num
    · rw [decodeLoop]
      norm_num
    · rw [decodeLoop]
      norm_num
    · rw [decodeLoop]
      norm_num
    · simp at hs

theorem c8_rgba_as_rgb_w :
    (([] : List Nat).length ≤ 3) ∧
      decodeLoop false (decInit false) Px.newOpaque 1 [0xFF] = .err .NotEnoughData :=
  ⟨by decide, c8_rgba_as_rgb.2 (decInit false) Px.newOpaque 0 [] (by decide)⟩

/-- C2 (code bug): a RUN chunk whose count exceeds the remaining pixel
capacity panics (`pixels.split_at_mut(run)` with `run` larger than the
slice, src/src/decode.rs line 252) instead of stopping at the declared
pixel count: decoding a 2×1 3-channel image whose body is a RUN chunk of
6 pixels aborts. -/
theorem c2_run_overflow_fault :
    Qoi.decode
      [0x71, 0x6F, 0x69, 0x66, 0, 0, 0, 2, 0, 0, 0, 1, 3, 1,
        0xC5, 0, 0, 0, 0, 0, 0, 0, 1]
      [0, 0, 0, 0, 0, 0] = .fault := by
  have hh : Qoi.decode_header
      [0x71, 0x6F, 0x69, 0x66, 0, 0, 0, 2, 0, 0, 0, 1, 3, 1,
        0xC5, 0, 0, 0, 0, 0, 0, 0, 1] = .ok ⟨2, 1, .Rgb⟩ := by decide
  have hf : decodeLoop false (decInit false) Px.newOpaque 2
      [0xC5, 0, 0, 0, 0, 0, 0, 0, 1] = .fault :=
    decodeLoop_run_fault false (decInit false) Px.newOpaque 1 0xC5
      [0, 0, 0, 0, 0, 0, 0, 1] (by norm_num) (by norm_num) (by norm_num)
  unfold Qoi.decode
  rw [hh]
  simp [Qoi.decode_skip_header, Qoi.decoded_size, Colors.channels,
    Colors.has_alpha, Qoi.decode_range, QOI_HEADER_SIZE, hf]

/-- C5 counterexample: encoding the 3×1 RGB image (10,20,30), (10,20,30),
(11,21,31) reaches the third pixel with a pending run of exactly 1; the
flush byte (output index 18) is 0x09 — a one-byte INDEX chunk addressing
hash((10,20,30,255)) = 9 — not a `QOI_OP_RUN` chunk (0xC0..0xFD) as the
claim requires for every positive pending run length. -/
theorem c5_counterexample :
    Qoi.encode ⟨3, 1, .Rgb⟩ [10, 20, 30, 10, 20, 30, 11, 21, 31]
        (List.replicate 34 0) =
      .ok ([113, 111, 105, 102, 0, 0, 0, 3, 0, 0, 0, 1, 3, 1,
        254, 10, 20, 30, 9, 127, 0, 0, 0, 0, 0, 0, 0, 1, 0, 0, 0, 0, 0, 0], 28) ∧
    [113, 111, 105, 102, 0, 0, 0, 3, 0, 0, 0, 1, 3, 1,
        254, 10, 20, 30, 9, 127, 0, 0, 0, 0, 0, 0, 0, 1,
        0, 0, 0, 0, 0, 0].getD 18 0 = 9 ∧
    ¬ (0xC0 ≤ 9 ∧ 9 ≤ 0xFD) := by
  refine ⟨by decide, by decide, by decide⟩

/-- C3: every successful `Qoi::encode` output is at least 22 bytes and ends
with the 8-byte end marker (seven 0x00 bytes then 0x01); a 0×0 image
encodes to exactly 22 bytes (14-byte header plus the marker). -/
theorem c3_end_marker :
    (∀ (q : Qoi) (pixels output out : List Nat) (size : Nat),
      Qoi.encode q pixels output = .ok (out, size) →
      22 ≤ size ∧ (out.take size).drop (size - 8) = [0, 0, 0, 0, 0, 0, 0, 1]) ∧
    Qoi.encode ⟨0, 0, .Rgb⟩ [] (List.replicate 22 0) =
      .ok ([0x71, 0x6F, 0x69, 0x66, 0, 0, 0, 0, 0, 0, 0, 0, 3, 1,
        0, 0, 0, 0, 0, 0, 0, 1], 22) := by
  constructor
  · intro q pixels output out size h
    unfold Qoi.encode at h
    split at h
    · cases h
    · dsimp only at h
      split at h
      · split at h
        · next body idx prev run heq =>
          split at h
          · cases h
          · rw [PRes.ok.injEq, Prod.mk.injEq] at h
            obtain ⟨hout, hsize⟩ := h
            subst hout
            subst hsize
            refine ⟨by simp only [QOI_PADDING, QOI_HEADER_SIZE]; omega, ?_⟩
            rw [show qoiMagicBytes ++ be32 q.width ++ be32 q.height ++
                [q.colors.headerBytes.1, q.colors.headerBytes.2] ++ body ++ endMarker ++
                List.drop (QOI_HEADER_SIZE + body.length + QOI_PADDING) output =
                ((qoiMagicBytes ++ be32 q.width ++ be32 q.height ++
                  [q.colors.headerBytes.1, q.colors.headerBytes.2] ++ body) ++ endMarker) ++
                List.drop (QOI_HEADER_SIZE + body.length + QOI_PADDING) output by
              simp [List.append_assoc]]
            rw [List.take_left' (by
              simp [endMarker, qoiMagicBytes, be32, QOI_PADDING, QOI_HEADER_SIZE])]
            rw [List.drop_left' (by
              simp [qoiMagicBytes, be32, QOI_PADDING, QOI_HEADER_SIZE])]
            decide
        · cases h
        · cases h
      · cases h
  · decide

theorem c3_end_marker_w :
    Qoi.encode ⟨0, 0, .Rgb⟩ [] (List.replicate 22 0) =
      .ok ([0x71, 0x6F, 0x69, 0x66, 0, 0, 0, 0, 0, 0, 0, 0, 3, 1,
        0, 0, 0, 0, 0, 0, 0, 1], 22) ∧
    22 ≤ 22 ∧
    (([0x71, 0x6F, 0x69, 0x66, 0, 0, 0, 0, 0, 0, 0, 0, 3, 1,
        0, 0, 0, 0, 0, 0, 0, 1] : List Nat).take 22).drop (22 - 8) =
      [0, 0, 0, 0, 0, 0, 0, 1] :=
  ⟨by decide,
    c3_end_marker.1 ⟨0, 0, .Rgb⟩ [] (List.replicate 22 0) _ 22 (by decide)⟩

theorem Px.hash_lt (p : Px) : p.hash < 64 := by
  unfold Px.hash
  omega

theorem encFlush_length (alpha : Bool) (idx : Table) (prev : Px) (run : Nat) :
    (encFlush alpha idx prev run).length = min run 1 := by
  unfold encFlush
  split_ifs <;> simp <;> omega

theorem encChunkOp_length (alpha : Bool) (idx : Table) (prev px : Px) :
    1 ≤ (encChunkOp alpha idx prev px).1.length ∧
      (encChunkOp alpha idx prev px).1.length ≤ cond alpha 5 4 := by
  cases alpha <;>
    (unfold encChunkOp
     rcases hd : diffByte (wsub px.r prev.r) (wsub px.g prev.g) (wsub px.b prev.b)
         with _ | d <;>
       rcases hl : lumaBytes (wsub px.r prev.r) (wsub px.g prev.g) (wsub px.b prev.b)
           with _ | ⟨lu, ma⟩ <;>
       simp only [hd, hl] <;> split_ifs <;> simp_all)

theorem encode_range_total (alpha : Bool) :
    ∀ (ps : List Px) (idx : Table) (prev : Px) (run cap : Nat),
      cond alpha 5 4 * ps.length + min run 1 + 8 ≤ cap →
      ∃ body idx' prev' run',
        Qoi.encode_range alpha idx prev run cap ps = .ok (body, idx', prev', run') ∧
        body.length + min run' 1 ≤ cond alpha 5 4 * ps.length + min run 1 := by
  intro ps
  induction ps with
  | nil =>
    intro idx prev run cap hcap
    exact ⟨[], idx, prev, run, encode_range_nil alpha idx prev run cap, by simp⟩
  | cons px tail ih =>
    intro idx prev run cap hcap
    have hM4 : 4 ≤ cond alpha 5 4 := by cases alpha <;> decide
    have hM5 : cond alpha 5 4 ≤ 5 := by cases alpha <;> decide
    simp only [List.length_cons, Nat.mul_succ] at hcap
    have hcap7 : 7 < cap := by omega
    by_cases heq : pxEq alpha px prev
    · by_cases hend : run = 61 ∨ tail = []
      · rw [encode_range_run_emit alpha idx prev run cap px tail hcap7 heq hend]
        obtain ⟨body, idx', prev', run', hok, hb⟩ :=
          ih idx prev 0 (cap - 1) (by omega)
        rw [hok, PRes.ok_map]
        refine ⟨_, _, _, _, rfl, ?_⟩
        simp only [eprep, List.length_append, List.length_cons, List.length_nil,
          Nat.mul_succ]
        omega
      · rw [encode_range_run_acc alpha idx prev run cap px tail hcap7 heq hend]
        obtain ⟨body, idx', prev', run', hok, hb⟩ :=
          ih idx prev (run + 1) cap (by omega)
        refine ⟨body, idx', prev', run', hok, ?_⟩
        simp only [List.length_cons, Nat.mul_succ]
        omega
    · have hf : (encFlush alpha idx prev run).length = min run 1 :=
        encFlush_length alpha idx prev run
      have hc := encChunkOp_length alpha idx prev px
      have hnofault : ¬ (cap - (encFlush alpha idx prev run).length < 5) := by
        rw [hf]
        omega
      rw [encode_range_chunk alpha idx prev run cap px tail hcap7 heq hnofault]
      obtain ⟨body, idx', prev', run', hok, hb⟩ :=
        ih (encChunkOp alpha idx prev px).2 px 0
          (cap - (encFlush alpha idx prev run).length
            - (encChunkOp alpha idx prev px).1.length) (by rw [hf]; omega)
      rw [hok, PRes.ok_map]
      refine ⟨_, _, _, _, rfl, ?_⟩
      simp only [eprep, List.length_append, List.length_cons, Nat.mul_succ]
      omega

theorem readPixels_length_false : ∀ l : List Nat,
    (readPixels false l).length = l.length / 3
  | [] => by simp [readPixels]
  | [_] => by simp [readPixels]
  | [_, _] => by simp [readPixels]
  | r :: g :: b :: rest => by
    show (⟨r, g, b, 255⟩ :: readPixels false rest : List Px).length = _
    simp only [List.length_cons, readPixels_length_false rest]
    omega

theorem readPixels_length_true : ∀ l : List Nat,
    (readPixels true l).length = l.length / 4
  | [] => by simp [readPixels]
  | [_] => by simp [readPixels]
  | [_, _] => by simp [readPixels]
  | [_, _, _] => by simp [readPixels]
  | r :: g :: b :: a :: rest => by
    show (⟨r, g, b, a⟩ :: readPixels true rest : List Px).length = _
    simp only [List.length_cons, readPixels_length_true rest]
    omega

theorem write_read_false : ∀ l : List Nat, l.length % 3 = 0 →
    writePixels false (readPixels false l) = l
  | [] => fun _ => rfl
  | [_] => by intro h; simp at h
  | [_, _] => by intro h; simp at h
  | r :: g :: b :: rest => by
    intro h
    have h3 : rest.length % 3 = 0 := by
      simp only [List.length_cons] at h
      omega
    show r :: g :: b :: writePixels false (readPixels false rest) = _
    rw [write_read_false rest h3]

theorem write_read_true : ∀ l : List Nat, l.length % 4 = 0 →
    writePixels true (readPixels true l) = l
  | [] => fun _ => rfl
  | [_] => by intro h; simp at h
  | [_, _] => by intro h; simp at h
  | [_, _, _] => by intro h; simp at h
  | r :: g :: b :: a :: rest => by
    intro h
    have h4 : rest.length % 4 = 0 := by
      simp only [List.length_cons] at h
      omega
    show r :: g :: b :: a :: writePixels true (readPixels true rest) = _
    rw [write_read_true rest h4]

theorem headerBytes_fst (c : Colors) : (Colors.headerBytes c).1 = c.channels := by
  cases c <;> rfl

theorem channels_add_one (c : Colors) : cond c.has_alpha 5 4 = c.channels + 1 := by
  cases c <;> rfl

theorem c4_encoded_size_limit :
    (∀ q : Qoi, q.encoded_size_limit =
      q.width * q.height * (q.colors.channels + 1) + 14 + 8) ∧
    (∀ (q : Qoi) (pixels : List Nat),
      (∃ r, Qoi.encode q pixels (List.replicate q.encoded_size_limit 0) = .ok r) ∨
      Qoi.encode q pixels (List.replicate q.encoded_size_limit 0) =
        .err .NotEnoughPixelData) := by
  have hlim : ∀ q : Qoi, q.encoded_size_limit =
      q.width * q.height * (q.colors.channels + 1) + 14 + 8 := by
    rintro ⟨w, h, c⟩
    cases c <;>
      simp [Qoi.encoded_size_limit, Colors.channels, Colors.has_alpha,
        QOI_HEADER_SIZE, QOI_PADDING]
  refine ⟨hlim, ?_⟩
  rintro ⟨w, h, c⟩ pixels
  unfold Qoi.encode
  rw [if_neg (by
    rw [List.length_replicate, hlim]
    simp only [QOI_HEADER_SIZE]
    omega)]
  dsimp only
  rw [headerBytes_fst]
  by_cases hpx : w * h * c.channels ≤ pixels.length
  · rw [if_pos hpx]
    have hpslen : (readPixels c.has_alpha
        (pixels.take (w * h * c.channels))).length = w * h := by
      rcases c <;>
        simp only [Colors.has_alpha, Colors.channels, readPixels_length_false,
          readPixels_length_true, List.length_take] at hpx ⊢ <;>
        omega
    obtain ⟨body, idx', prev', run', hok, hb⟩ :=
      encode_range_total c.has_alpha
        (readPixels c.has_alpha (pixels.take (w * h * c.channels)))
        encInit Px.newOpaque 0
        ((List.replicate (Qoi.mk w h c).encoded_size_limit (0 : Nat)).length
          - QOI_HEADER_SIZE)
        (by
          rw [List.length_replicate, hlim, hpslen, channels_add_one,
            Nat.mul_comm (c.channels + 1) (w * h)]
          simp only [QOI_HEADER_SIZE]
          omega)
    rw [hok]
    dsimp only
    rw [if_neg (by
      rw [hpslen, channels_add_one,
        Nat.mul_comm (c.channels + 1) (w * h)] at hb
      rw [List.length_replicate, hlim]
      simp only [QOI_HEADER_SIZE, QOI_PADDING]
      omega)]
    exact Or.inl ⟨_, rfl⟩
  · rw [if_neg hpx]
    exact Or.inr rfl

/-- C5 (amended): when the current pixel differs from the previous one and
the pending run counter is positive, `encode_range` emits the flush bytes
first: for run ≥ 2 exactly one `QOI_OP_RUN` chunk with value run − 1; for
run = 1 a one-byte INDEX chunk addressing hash(px_prev), except when that
hash is 0x35 and slot 0x35 still holds the all-zero entry, in which case
`QOI_OP_RUN` with value 0. -/
theorem c5_run_flush (alpha : Bool) (idx : Table) (prev : Px) (run cap : Nat)
    (px : Px) (tail : List Px) (body : List Nat) (idx' : Table) (prev' : Px)
    (run' : Nat) (hne : ¬ pxEq alpha px prev) (hr : 1 ≤ run)
    (hok : Qoi.encode_range alpha idx prev run cap (px :: tail) =
      .ok (body, idx', prev', run')) :
    ∃ rest1,
      body = encFlush alpha idx prev run ++ rest1 ∧
      (2 ≤ run → encFlush alpha idx prev run = [0xC0 + (run - 1)]) ∧
      (run = 1 → encFlush alpha idx prev run =
        if (prev.rgba alpha).hash = 0x35 ∧ idx 0x35 = Px.new then [0xC0]
        else [(prev.rgba alpha).hash]) := by
  have hch : (2 ≤ run → encFlush alpha idx prev run = [0xC0 + (run - 1)]) ∧
      (run = 1 → encFlush alpha idx prev run =
        if (prev.rgba alpha).hash = 0x35 ∧ idx 0x35 = Px.new then [0xC0]
        else [(prev.rgba alpha).hash]) := by
    constructor
    · intro h2
      unfold encFlush
      rw [if_neg (by omega), if_neg (by omega)]
    · intro h1
      subst h1
      unfold encFlush
      rw [if_neg (by omega), if_pos rfl]
  by_cases hcap : 7 < cap
  · by_cases hfault : cap - (encFlush alpha idx prev run).length < 5
    · rw [encode_range_fault alpha idx prev run cap px tail hcap hne hfault] at hok
      cases hok
    · rw [encode_range_chunk alpha idx prev run cap px tail hcap hne hfault] at hok
      obtain ⟨⟨body0, st⟩, hrec, hb⟩ := PRes.map_eq_ok _ _ _ hok
      simp only [eprep] at hb
      injection hb with hb1 hb2
      exact ⟨(encChunkOp alpha idx prev px).1 ++ body0,
        by rw [hb1, List.append_assoc], hch.1, hch.2⟩
  · rw [encode_range_small alpha idx prev run cap px tail hcap] at hok
    cases hok

theorem c5_run_flush_w :
    ¬ pxEq false ⟨1, 1, 0, 255⟩ ⟨1, 1, 1, 255⟩ ∧ 1 ≤ 2 ∧
    ∃ rest1,
      ([0xC1, 105] : List Nat) = encFlush false encInit ⟨1, 1, 1, 255⟩ 2 ++ rest1 ∧
      (2 ≤ 2 → encFlush false encInit ⟨1, 1, 1, 255⟩ 2 = [0xC0 + (2 - 1)]) ∧
      (2 = 1 → encFlush false encInit ⟨1, 1, 1, 255⟩ 2 =
        if (Px.rgba false ⟨1, 1, 1, 255⟩).hash = 0x35 ∧ encInit 0x35 = Px.new
        then [0xC0] else [(Px.rgba false ⟨1, 1, 1, 255⟩).hash]) :=
  ⟨by decide, by decide,
    c5_run_flush false encInit ⟨1, 1, 1, 255⟩ 2 8 ⟨1, 1, 0, 255⟩ [] [0xC1, 105]
      (tset encInit 61 ⟨1, 1, 0, 255⟩) ⟨1, 1, 0, 255⟩ 0 (by decide) (by decide) rfl⟩

theorem Px.rgba_idem (alpha : Bool) (p : Px) :
    (p.rgba alpha).rgba alpha = p.rgba alpha := by
  cases alpha <;> simp [Px.rgba]

theorem Px.rgba_of_a255 (alpha : Bool) (p : Px) (h : PxA alpha p) :
    p.rgba alpha = p := by
  cases alpha
  · have := h rfl
    simp [Px.rgba]
    cases p
    simp_all
  · simp [Px.rgba]

theorem pxEq_to_eq (alpha : Bool) (p q : Px) (h : pxEq alpha p q)
    (hp : PxA alpha p) (hq : PxA alpha q) : p = q := by
  unfold pxEq at h
  rw [Px.rgba_of_a255 alpha p hp, Px.rgba_of_a255 alpha q hq] at h
  exact h

theorem newOpaque_rgba (alpha : Bool) : Px.newOpaque.rgba alpha = Px.newOpaque := by
  cases alpha <;> rfl

theorem newOpaque_hash : Px.newOpaque.hash = 0x35 := by decide

theorem map_dprep_nil (r : PRes DecodeError (List Px × Table × Px × Nat × List Nat)) :
    r.map (dprep []) = r := by
  cases r <;> simp [PRes.map, dprep]

theorem map_dprep_dprep (l1 l2 : List Px)
    (r : PRes DecodeError (List Px × Table × Px × Nat × List Nat)) :
    (r.map (dprep l2)).map (dprep l1) = r.map (dprep (l1 ++ l2)) := by
  cases r <;> simp [PRes.map, dprep]

theorem TableRel_tset (alpha : Bool) (e d : Table) (h : Nat) (px : Px)
    (hrel : TableRel alpha e d) (hpa : PxA alpha px) :
    TableRel alpha (tset e h (px.rgba alpha)) (tset d h px) := by
  intro i hi
  unfold tset
  by_cases hih : i = h
  · rw [if_pos hih, if_pos hih, Px.rgba_idem, Px.rgba_of_a255 alpha px hpa]
  · rw [if_neg hih, if_neg hih]
    exact hrel i hi

theorem TableRel_init (alpha : Bool) : TableRel alpha encInit (decInit alpha) := by
  intro i hi
  cases alpha <;> rfl

theorem diff_roundtrip (prev px : Px) (hpv : PxV prev) (hxv : PxV px)
    (ha : px.a = prev.a) (d : Nat)
    (hd : diffByte (wsub px.r prev.r) (wsub px.g prev.g) (wsub px.b prev.b) =
      some d) :
    0x40 ≤ d ∧ d < 0x80 ∧
      prev.addRgb (wsub (d / 16 % 4) 2) (wsub (d / 4 % 4) 2) (wsub (d % 4) 2) =
        px := by
  unfold diffByte at hd
  dsimp only at hd
  split_ifs at hd with hc
  · injection hd with hd
    obtain ⟨hx, hy, hz⟩ := hc
    obtain ⟨hpr, hpg, hpb, hpa'⟩ := hpv
    obtain ⟨hxr, hxg, hxb, hxa⟩ := hxv
    subst hd
    refine ⟨by omega, by omega, ?_⟩
    rcases px with ⟨xr, xg, xb, xa⟩
    rcases prev with ⟨pr, pg, pb, pa⟩
    simp only [Px.addRgb, Px.mk.injEq]
    simp only at ha hpr hpg hpb hxr hxg hxb hx hy hz
    unfold wadd wsub at *
    refine ⟨by omega, by omega, by omega, by omega⟩

theorem luma_roundtrip (prev px : Px) (hpv : PxV prev) (hxv : PxV px)
    (ha : px.a = prev.a) (lu ma : Nat)
    (hl : lumaBytes (wsub px.r prev.r) (wsub px.g prev.g) (wsub px.b prev.b) =
      some (lu, ma)) :
    0x80 ≤ lu ∧ lu < 0xC0 ∧
      prev.addRgb (wadd (wsub (ma / 16 % 16) 8) (wsub (lu % 64) 32))
        (wsub (lu % 64) 32) (wadd (wsub (ma % 16) 8) (wsub (lu % 64) 32)) =
        px := by
  unfold lumaBytes at hl
  dsimp only at hl
  split_ifs at hl with hc
  · injection hl with hl
    injection hl with hl1 hl2
    obtain ⟨hg, hr, hb⟩ := hc
    obtain ⟨hpr, hpg, hpb, hpa'⟩ := hpv
    obtain ⟨hxr, hxg, hxb, hxa⟩ := hxv
    subst hl1
    subst hl2
    refine ⟨by omega, by omega, ?_⟩
    rcases px with ⟨xr, xg, xb, xa⟩
    rcases prev with ⟨pr, pg, pb, pa⟩
    simp only [Px.addRgb, Px.mk.injEq]
    simp only at ha hpr hpg hpb hxr hxg hxb hg hr hb
    unfold wadd wsub at *
    refine ⟨by omega, by omega, by omega, by omega⟩

theorem setRgb_roundtrip (prev px : Px) (ha : px.a = prev.a) :
    prev.setRgb px.r px.g px.b = px := by
  rcases px with ⟨xr, xg, xb, xa⟩
  rcases prev with ⟨pr, pg, pb, pa⟩
  simp only [Px.setRgb, Px.mk.injEq]
  simp only at ha
  simp [ha]

theorem setRgba_roundtrip (px : Px) : Px.setRgba px.r px.g px.b px.a = px := by
  rcases px with ⟨xr, xg, xb, xa⟩
  rfl

theorem run_byte_facts (run : Nat) (h : run ≤ 61) :
    0xC0 ≤ 0xC0 + run ∧ 0xC0 + run ≤ 0xFD ∧ (0xC0 + run) % 64 = run := by
  omega

theorem decode_flush (alpha : Bool) (eIdx dIdx : Table) (prev : Px) (run m : Nat)
    (more : List Nat) (hrel : TableRel alpha eIdx dIdx)
    (hep : EncPrevInv alpha eIdx prev) (hpa : PxA alpha prev) (hrun : run ≤ 61) :
    decodeLoop alpha dIdx prev (run + m + 1) (encFlush alpha eIdx prev run ++ more) =
      (decodeLoop alpha dIdx prev (m + 1) more).map
        (dprep (List.replicate run prev)) := by
  rcases run with _ | _ | run2
  · unfold encFlush
    rw [if_pos rfl]
    simp only [List.nil_append, List.replicate_zero, Nat.zero_add]
    rw [map_dprep_nil]
  · unfold encFlush
    rw [if_neg (by omega), if_pos rfl]
    by_cases hsp : (prev.rgba alpha).hash = 0x35 ∧ eIdx 0x35 = Px.new
    · rw [if_pos hsp, List.singleton_append,
        show 1 + m + 1 = (m + 1) + 1 by omega,
        decodeLoop_run alpha dIdx prev (m + 1) 0xC0 more (by norm_num)
          (by norm_num) (by omega)]
      norm_num
    · rw [if_neg hsp, List.singleton_append,
        show 1 + m + 1 = (m + 1) + 1 by omega,
        decodeLoop_index alpha dIdx prev (m + 1) (prev.rgba alpha).hash more
          (Px.hash_lt _)]
      have hd : dIdx (prev.rgba alpha).hash = prev := by
        rcases hep with hep | ⟨hprev, h53⟩
        · rw [hrel _ (Px.hash_lt _), hep, Px.rgba_idem,
            Px.rgba_of_a255 alpha prev hpa]
        · exfalso
          apply hsp
          subst hprev
          rw [newOpaque_rgba, newOpaque_hash]
          exact ⟨rfl, h53⟩
      rw [hd]
      simp [List.replicate]
  · unfold encFlush
    rw [if_neg (by omega), if_neg (by omega), List.singleton_append]
    have hb := run_byte_facts (run2 + 1 + 1 - 1) (by omega)
    rw [decodeLoop_run alpha dIdx prev (run2 + 1 + 1 + m)
      (0xC0 + (run2 + 1 + 1 - 1)) more hb.1 hb.2.1 (by rw [hb.2.2]; omega)]
    rw [hb.2.2]
    rw [show run2 + 1 + 1 + m - (run2 + 1 + 1 - 1) = m + 1 by omega]
    have hrep : (prev :: List.replicate (run2 + 1 + 1 - 1) prev) =
        List.replicate (run2 + 1 + 1) prev := by
      rw [show run2 + 1 + 1 - 1 = run2 + 1 by omega]
      rfl
    rw [hrep]

theorem encChunkOp_hit (alpha : Bool) (idx : Table) (prev px : Px)
    (h : idx (px.rgba alpha).hash = px.rgba alpha) :
    encChunkOp alpha idx prev px = ([(px.rgba alpha).hash], idx) := by
  unfold encChunkOp
  dsimp only
  rw [if_pos h]

theorem encChunkOp_rgba (idx : Table) (prev px : Px)
    (h : ¬ idx (px.rgba true).hash = px.rgba true) (ha : prev.a ≠ px.a) :
    encChunkOp true idx prev px = ([0xFF, px.r, px.g, px.b, px.a],
      tset idx (px.rgba true).hash (px.rgba true)) := by
  unfold encChunkOp
  dsimp only
  rw [if_neg h, if_pos ⟨rfl, ha⟩]

theorem encChunkOp_diff (alpha : Bool) (idx : Table) (prev px : Px) (d : Nat)
    (h : ¬ idx (px.rgba alpha).hash = px.rgba alpha)
    (ha : ¬ (alpha = true ∧ prev.a ≠ px.a))
    (hd : diffByte (wsub px.r prev.r) (wsub px.g prev.g) (wsub px.b prev.b) =
      some d) :
    encChunkOp alpha idx prev px = ([d],
      tset idx (px.rgba alpha).hash (px.rgba alpha)) := by
  unfold encChunkOp
  dsimp only
  rw [if_neg h, if_neg ha, hd]

theorem encChunkOp_luma (alpha : Bool) (idx : Table) (prev px : Px) (lu ma : Nat)
    (h : ¬ idx (px.rgba alpha).hash = px.rgba alpha)
    (ha : ¬ (alpha = true ∧ prev.a ≠ px.a))
    (hd : diffByte (wsub px.r prev.r) (wsub px.g prev.g) (wsub px.b prev.b) = none)
    (hl : lumaBytes (wsub px.r prev.r) (wsub px.g prev.g) (wsub px.b prev.b) =
      some (lu, ma)) :
    encChunkOp alpha idx prev px = ([lu, ma],
      tset idx (px.rgba alpha).hash (px.rgba alpha)) := by
  unfold encChunkOp
  dsimp only
  rw [if_neg h, if_neg ha, hd, hl]

theorem encChunkOp_rgb (alpha : Bool) (idx : Table) (prev px : Px)
    (h : ¬ idx (px.rgba alpha).hash = px.rgba alpha)
    (ha : ¬ (alpha = true ∧ prev.a ≠ px.a))
    (hd : diffByte (wsub px.r prev.r) (wsub px.g prev.g) (wsub px.b prev.b) = none)
    (hl : lumaBytes (wsub px.r prev.r) (wsub px.g prev.g) (wsub px.b prev.b) =
      none) :
    encChunkOp alpha idx prev px = ([0xFE, px.r, px.g, px.b],
      tset idx (px.rgba alpha).hash (px.rgba alpha)) := by
  unfold encChunkOp
  dsimp only
  rw [if_neg h, if_neg ha, hd, hl]

theorem decode_chunk (alpha : Bool) (eIdx dIdx : Table) (prev px : Px) (m : Nat)
    (more : List Nat) (hrel : TableRel alpha eIdx dIdx)
    (hpv : PxV prev) (hpa : PxA alpha prev) (hxv : PxV px) (hxa : PxA alpha px)
    (haeq : alpha = false → prev.a = px.a) :
    ∃ dIdx' : Table,
      decodeLoop alpha dIdx prev (m + 1) ((encChunkOp alpha eIdx prev px).1 ++ more) =
        (decodeLoop alpha dIdx' px m more).map (dprep [px]) ∧
      TableRel alpha (encChunkOp alpha eIdx prev px).2 dIdx' := by
  by_cases hhit : eIdx (px.rgba alpha).hash = px.rgba alpha
  · rw [encChunkOp_hit alpha eIdx prev px hhit]
    have hd : dIdx (px.rgba alpha).hash = px := by
      rw [hrel _ (Px.hash_lt _), hhit, Px.rgba_idem, Px.rgba_of_a255 alpha px hxa]
    rw [List.singleton_append,
      decodeLoop_index alpha dIdx prev m (px.rgba alpha).hash more (Px.hash_lt _),
      hd]
    exact ⟨dIdx, rfl, hrel⟩
  · by_cases hal : alpha = true ∧ prev.a ≠ px.a
    · obtain ⟨hat, hane⟩ := hal
      subst hat
      rw [encChunkOp_rgba eIdx prev px hhit hane]
      rw [show ([0xFF, px.r, px.g, px.b, px.a] ++ more) =
        (0xFF :: px.r :: px.g :: px.b :: px.a :: more) from rfl]
      rw [decodeLoop_rgba true dIdx prev m px.r px.g px.b px.a more]
      simp only [if_pos rfl, setRgba_roundtrip]
      exact ⟨tset dIdx (px.rgba true).hash px, rfl,
        TableRel_tset true eIdx dIdx _ px hrel hxa⟩
    · have ha : px.a = prev.a := by
        cases alpha
        · rw [hxa rfl, hpa rfl]
        · have : prev.a = px.a := by
            by_contra hne
            exact hal ⟨rfl, hne⟩
          exact this.symm
      rcases hdo : diffByte (wsub px.r prev.r) (wsub px.g prev.g)
          (wsub px.b prev.b) with _ | d
      · rcases hlo : lumaBytes (wsub px.r prev.r) (wsub px.g prev.g)
            (wsub px.b prev.b) with _ | ⟨lu, ma⟩
        · rw [encChunkOp_rgb alpha eIdx prev px hhit hal hdo hlo]
          rw [show ([0xFE, px.r, px.g, px.b] ++ more) =
            (0xFE :: px.r :: px.g :: px.b :: more) from rfl]
          rw [decodeLoop_rgb alpha dIdx prev m px.r px.g px.b more]
          simp only [setRgb_roundtrip prev px ha]
          exact ⟨tset dIdx (px.rgba alpha).hash px, rfl,
            TableRel_tset alpha eIdx dIdx _ px hrel hxa⟩
        · obtain ⟨hlu1, hlu2, hlpx⟩ := luma_roundtrip prev px hpv hxv ha lu ma hlo
          rw [encChunkOp_luma alpha eIdx prev px lu ma hhit hal hdo hlo]
          rw [show ([lu, ma] ++ more) = (lu :: ma :: more) from rfl]
          rw [decodeLoop_luma alpha dIdx prev m lu ma more hlu1 hlu2]
          simp only [hlpx]
          exact ⟨tset dIdx (px.rgba alpha).hash px, rfl,
            TableRel_tset alpha eIdx dIdx _ px hrel hxa⟩
      · obtain ⟨hd1, hd2, hdpx⟩ := diff_roundtrip prev px hpv hxv ha d hdo
        rw [encChunkOp_diff alpha eIdx prev px d hhit hal hdo]
        rw [List.singleton_append,
          decodeLoop_diff alpha dIdx prev m d more hd1 hd2]
        simp only [hdpx]
        exact ⟨tset dIdx (px.rgba alpha).hash px, rfl,
          TableRel_tset alpha eIdx dIdx _ px hrel hxa⟩

theorem encChunkOp_snd (alpha : Bool) (idx : Table) (prev px : Px) :
    (encChunkOp alpha idx prev px).2 =
      if idx (px.rgba alpha).hash = px.rgba alpha then idx
      else tset idx (px.rgba alpha).hash (px.rgba alpha) := by
  by_cases hhit : idx (px.rgba alpha).hash = px.rgba alpha
  · rw [encChunkOp_hit alpha idx prev px hhit, if_pos hhit]
  · rw [if_neg hhit]
    by_cases hal : alpha = true ∧ prev.a ≠ px.a
    · obtain ⟨hat, hane⟩ := hal
      subst hat
      rw [encChunkOp_rgba idx prev px hhit hane]
    · rcases hdo : diffByte (wsub px.r prev.r) (wsub px.g prev.g)
          (wsub px.b prev.b) with _ | d
      · rcases hlo : lumaBytes (wsub px.r prev.r) (wsub px.g prev.g)
            (wsub px.b prev.b) with _ | ⟨lu, ma⟩
        · rw [encChunkOp_rgb alpha idx prev px hhit hal hdo hlo]
        · rw [encChunkOp_luma alpha idx prev px lu ma hhit hal hdo hlo]
      · rw [encChunkOp_diff alpha idx prev px d hhit hal hdo]

theorem encChunkOp_prev_inv (alpha : Bool) (idx : Table) (prev px : Px) :
    EncPrevInv alpha (encChunkOp alpha idx prev px).2 px := by
  rw [encChunkOp_snd]
  split_ifs with h
  · exact Or.inl h
  · left
    simp [tset]

theorem cons_replicate_append (a : Px) (n : Nat) (t : List Px) :
    (a :: List.replicate n a) ++ t = List.replicate n a ++ (a :: t) := by
  rw [show (a :: List.replicate n a) = List.replicate (n + 1) a from rfl,
    List.replicate_succ', List.append_assoc]
  rfl

theorem encodeDecodeSim (alpha : Bool) :
    ∀ (ps : List Px) (eIdx dIdx : Table) (prev : Px) (run cap : Nat)
      (body : List Nat) (eIdxF : Table) (prevF : Px) (runF : Nat),
      Qoi.encode_range alpha eIdx prev run cap ps = .ok (body, eIdxF, prevF, runF) →
      TableRel alpha eIdx dIdx → EncPrevInv alpha eIdx prev →
      PxV prev → PxA alpha prev → run ≤ 61 → (run ≠ 0 → ps ≠ []) →
      (∀ p ∈ ps, PxV p ∧ PxA alpha p) →
      ∀ extra : List Nat, ∃ dIdxF : Table,
        decodeLoop alpha dIdx prev (run + ps.length) (body ++ extra) =
          .ok (List.replicate run prev ++ ps, dIdxF, prevF, 0, extra) ∧
        TableRel alpha eIdxF dIdxF := by
  intro ps
  induction ps with
  | nil =>
    intro eIdx dIdx prev run cap body eIdxF prevF runF hok hrel hep hpv hpa hr61
      hrne hval extra
    have hrun0 : run = 0 := by
      by_contra h
      exact hrne h rfl
    subst hrun0
    rw [encode_range_nil] at hok
    rw [PRes.ok.injEq, Prod.mk.injEq, Prod.mk.injEq, Prod.mk.injEq] at hok
    obtain ⟨h1, h2, h3, h4⟩ := hok
    subst h1
    subst h2
    subst h3
    refine ⟨dIdx, ?_, hrel⟩
    simp [decodeLoop_zero]
  | cons px tail ih =>
    intro eIdx dIdx prev run cap body eIdxF prevF runF hok hrel hep hpv hpa hr61
      hrne hval extra
    have hcap : 7 < cap := by
      by_contra h
      rw [encode_range_small alpha eIdx prev run cap px tail h] at hok
      cases hok
    have hxv : PxV px := (hval px (by simp)).1
    have hxa : PxA alpha px := (hval px (by simp)).2
    have hvt : ∀ p ∈ tail, PxV p ∧ PxA alpha p := fun p hp => hval p (by simp [hp])
    by_cases heq : pxEq alpha px prev
    · obtain rfl := pxEq_to_eq alpha px prev heq hxa hpa
      by_cases hend : run = 61 ∨ tail = []
      · rw [encode_range_run_emit alpha eIdx px run cap px tail hcap rfl hend]
          at hok
        obtain ⟨⟨body0, idx0, prev0, run0⟩, hrec, hbeq⟩ := PRes.map_eq_ok _ _ _ hok
        simp only [eprep] at hbeq
        rw [Prod.mk.injEq, Prod.mk.injEq, Prod.mk.injEq] at hbeq
        obtain ⟨hb1, hb2, hb3, hb4⟩ := hbeq
        subst hb1
        subst hb2
        subst hb3
        subst hb4
        obtain ⟨dIdxF, hdec, hrelF⟩ :=
          ih eIdx dIdx px 0 (cap - 1) body0 eIdxF prevF runF hrec hrel hep hpv
            hpa (by omega) (by simp) hvt extra
        refine ⟨dIdxF, ?_, hrelF⟩
        have hrb := run_byte_facts run hr61
        rw [List.length_cons,
          show run + (tail.length + 1) = (run + tail.length) + 1 by omega,
          show ([0xC0 + run] ++ body0) ++ extra = (0xC0 + run) :: (body0 ++ extra)
            by simp,
          decodeLoop_run alpha dIdx px (run + tail.length) (0xC0 + run)
            (body0 ++ extra) hrb.1 hrb.2.1 (by rw [hrb.2.2]; omega),
          hrb.2.2, show run + tail.length - run = tail.length by omega]
        rw [Nat.zero_add] at hdec
        simp only [List.replicate_zero, List.nil_append] at hdec
        rw [hdec, PRes.ok_map]
        rw [PRes.ok.injEq, Prod.mk.injEq]
        exact ⟨by rw [dprep, cons_replicate_append], rfl⟩
      · rw [encode_range_run_acc alpha eIdx px run cap px tail hcap rfl hend]
          at hok
        push_neg at hend
        obtain ⟨dIdxF, hdec, hrelF⟩ :=
          ih eIdx dIdx px (run + 1) cap body eIdxF prevF runF hok hrel hep hpv
            hpa (by omega) (fun _ => hend.2) hvt extra
        refine ⟨dIdxF, ?_, hrelF⟩
        rw [List.length_cons,
          show run + (tail.length + 1) = (run + 1) + tail.length by omega,
          hdec, PRes.ok.injEq, Prod.mk.injEq]
        exact ⟨by rw [List.replicate_succ, cons_replicate_append], rfl⟩
    · by_cases hfault : cap - (encFlush alpha eIdx prev run).length < 5
      · rw [encode_range_fault alpha eIdx prev run cap px tail hcap heq hfault]
          at hok
        cases hok
      · rw [encode_range_chunk alpha eIdx prev run cap px tail hcap heq hfault]
          at hok
        obtain ⟨⟨body0, idx0, prev0, run0⟩, hrec, hbeq⟩ := PRes.map_eq_ok _ _ _ hok
        simp only [eprep] at hbeq
        rw [Prod.mk.injEq, Prod.mk.injEq, Prod.mk.injEq] at hbeq
        obtain ⟨hb1, hb2, hb3, hb4⟩ := hbeq
        subst hb1
        subst hb2
        subst hb3
        subst hb4
        have haeq : alpha = false → prev.a = px.a := by
          intro hf
          rw [hpa hf, hxa hf]
        obtain ⟨dIdx', hchunk, hrel'⟩ :=
          decode_chunk alpha eIdx dIdx prev px tail.length (body0 ++ extra) hrel
            hpv hpa hxv hxa haeq
        obtain ⟨dIdxF, hdec, hrelF⟩ :=
          ih (encChunkOp alpha eIdx prev px).2 dIdx' px 0 _ body0 eIdxF prevF
            runF hrec hrel' (encChunkOp_prev_inv alpha eIdx prev px) hxv hxa
            (by omega) (by simp) hvt extra
        refine ⟨dIdxF, ?_, hrelF⟩
        rw [List.length_cons,
          show run + (tail.length + 1) = run + tail.length + 1 by omega,
          show (encFlush alpha eIdx prev run ++ (encChunkOp alpha eIdx prev px).1
              ++ body0) ++ extra =
            encFlush alpha eIdx prev run ++ ((encChunkOp alpha eIdx prev px).1
              ++ (body0 ++ extra)) by simp [List.append_assoc],
          decode_flush alpha eIdx dIdx prev run tail.length _ hrel hep hpa hr61,
          hchunk, map_dprep_dprep]
        rw [Nat.zero_add] at hdec
        simp only [List.replicate_zero, List.nil_append] at hdec
        rw [hdec, PRes.ok_map]
        rw [PRes.ok.injEq, Prod.mk.injEq]
        refine ⟨?_, rfl⟩
        rw [dprep]
        simp [List.append_assoc]

theorem readPixels_valid (alpha : Bool) : ∀ l : List Nat, (∀ b ∈ l, b < 256) →
    ∀ p ∈ readPixels alpha l, PxV p ∧ PxA alpha p
  | [], _ => by cases alpha <;> simp [readPixels]
  | [x], hv => by cases alpha <;> simp [readPixels]
  | [x, y], hv => by cases alpha <;> simp [readPixels]
  | [x, y, z], hv => by
    cases alpha
    · intro p hp
      simp only [readPixels, List.mem_cons, List.not_mem_nil, or_false] at hp
      subst hp
      refine ⟨⟨?_, ?_, ?_, ?_⟩, ?_⟩ <;>
        first
          | exact hv x (by simp)
          | exact hv y (by simp)
          | exact hv z (by simp)
          | exact show (255:Nat) < 256 by decide
          | exact fun _ => rfl
    · simp [readPixels]
  | r :: g :: b :: a :: rest, hv => by
    cases alpha
    · intro p hp
      simp only [readPixels, List.mem_cons] at hp
      rcases hp with hp | hp
      · subst hp
        refine ⟨⟨?_, ?_, ?_, ?_⟩, ?_⟩ <;>
          first
            | exact hv r (by simp)
            | exact hv g (by simp)
            | exact hv b (by simp)
            | exact show (255:Nat) < 256 by decide
            | exact fun _ => rfl
      · exact readPixels_valid false (a :: rest)
          (fun x hx => hv x (by simp at hx ⊢; tauto)) p hp
    · intro p hp
      simp only [readPixels, List.mem_cons] at hp
      rcases hp with hp | hp
      · subst hp
        refine ⟨⟨?_, ?_, ?_, ?_⟩, ?_⟩ <;>
          first
            | exact hv r (by simp)
            | exact hv g (by simp)
            | exact hv b (by simp)
            | exact hv a (by simp)
            | exact fun hfalse => by cases hfalse
      · exact readPixels_valid true rest
          (fun x hx => hv x (by simp at hx ⊢; tauto)) p hp

theorem getD_zero (a : Nat) (l : List Nat) : (a :: l).getD 0 0 = a := rfl

theorem getD_succ (a : Nat) (l : List Nat) (n : Nat) :
    (a :: l).getD (n + 1) 0 = l.getD n 0 := rfl

theorem decode_header_cons (w h : Nat) (hw : w < 4294967296)
    (hh : h < 4294967296) (c : Colors) (rest : List Nat) :
    Qoi.decode_header (0x71 :: 0x6F :: 0x69 :: 0x66 ::
      (w / 16777216 % 256) :: (w / 65536 % 256) :: (w / 256 % 256) :: (w % 256) ::
      (h / 16777216 % 256) :: (h / 65536 % 256) :: (h / 256 % 256) :: (h % 256) ::
      (Colors.headerBytes c).1 :: (Colors.headerBytes c).2 :: rest) =
      .ok ⟨w, h, c⟩ := by
  unfold Qoi.decode_header
  rw [if_neg (by simp only [List.length_cons, QOI_HEADER_SIZE]; omega)]
  rw [if_neg (by
    intro hcon
    apply hcon
    simp only [readBe32, getD_succ, getD_zero, QOI_MAGIC])]
  have hw' : readBe32 (0x71 :: 0x6F :: 0x69 :: 0x66 ::
      (w / 16777216 % 256) :: (w / 65536 % 256) :: (w / 256 % 256) :: (w % 256) ::
      (h / 16777216 % 256) :: (h / 65536 % 256) :: (h / 256 % 256) :: (h % 256) ::
      (Colors.headerBytes c).1 :: (Colors.headerBytes c).2 :: rest) 4 = w := by
    simp only [readBe32, getD_succ, getD_zero]
    omega
  have hh' : readBe32 (0x71 :: 0x6F :: 0x69 :: 0x66 ::
      (w / 16777216 % 256) :: (w / 65536 % 256) :: (w / 256 % 256) :: (w % 256) ::
      (h / 16777216 % 256) :: (h / 65536 % 256) :: (h / 256 % 256) :: (h % 256) ::
      (Colors.headerBytes c).1 :: (Colors.headerBytes c).2 :: rest) 8 = h := by
    simp only [readBe32, getD_succ, getD_zero]
    omega
  cases c
  · rw [if_pos (by constructor <;> rfl)]
    rw [hw', hh']
  · rw [if_neg (by rintro ⟨h1, h2⟩; cases h1), if_pos (by constructor <;> rfl)]
    rw [hw', hh']
  · rw [if_neg (by rintro ⟨h1, h2⟩; cases h2),
      if_neg (by rintro ⟨h1, h2⟩; cases h1),
      if_pos (by constructor <;> rfl)]
    rw [hw', hh']
  · rw [if_neg (by rintro ⟨h1, h2⟩; cases h2),
      if_neg (by rintro ⟨h1, h2⟩; cases h2),
      if_neg (by rintro ⟨h1, h2⟩; cases h1),
      if_pos (by constructor <;> rfl)]
    rw [hw', hh']


theorem decode_via (bytes output : List Nat) (q : Qoi) (out : List Nat)
    (h1 : Qoi.decode_header bytes = .ok q)
    (h2 : q.decode_skip_header (bytes.drop QOI_HEADER_SIZE) output = .ok out) :
    Qoi.decode bytes output = .ok (q, out) := by
  unfold Qoi.decode
  rw [h1]
  dsimp only
  rw [h2]

theorem decode_skip_header_zero (q : Qoi) (bytes output : List Nat)
    (hz : q.width = 0 ∨ q.height = 0) :
    q.decode_skip_header bytes output = .ok output := by
  unfold Qoi.decode_skip_header
  rw [if_pos hz]

theorem decode_range_zero (alpha : Bool) (idx : Table) (ppx : Px)
    (bytes : List Nat) (n : Nat) :
    Qoi.decode_range alpha idx ppx 0 bytes n = decodeLoop alpha idx ppx n bytes := by
  unfold Qoi.decode_range
  rw [if_neg (lt_irrefl 0)]

theorem decode_skip_header_ok (q : Qoi) (bytes output : List Nat)
    (hnz : ¬ (q.width = 0 ∨ q.height = 0))
    (hlenO : ¬ (output.length < q.decoded_size))
    (outs : List Px) (idxF : Table) (pxF : Px) (runF : Nat) (restF : List Nat)
    (hdl : Qoi.decode_range q.colors.has_alpha (decInit q.colors.has_alpha)
      Px.newOpaque 0 bytes (q.decoded_size / q.colors.channels) =
        .ok (outs, idxF, pxF, runF, restF)) :
    q.decode_skip_header bytes output =
      .ok (writePixels q.colors.has_alpha outs ++ output.drop q.decoded_size) := by
  unfold Qoi.decode_skip_header
  rw [if_neg hnz]
  dsimp only
  rw [if_neg hlenO, hdl]

/-- C1: for dimensions in u32 range and a pixel buffer of exactly
width * height * channels bytes (each in u8 range), encoding with
`Qoi.encode` into a buffer of size `encoded_size_limit` succeeds, and
decoding the written prefix with `Qoi.decode` returns the original
descriptor and exactly the original pixel bytes. -/
theorem c1_round_trip (q : Qoi) (pixels : List Nat)
    (hw : q.width < 4294967296) (hh : q.height < 4294967296)
    (hlen : pixels.length = q.width * q.height * q.colors.channels)
    (hbytes : ∀ b ∈ pixels, b < 256) :
    ∃ out size,
      Qoi.encode q pixels (List.replicate q.encoded_size_limit 0) =
        .ok (out, size) ∧
      Qoi.decode (out.take size)
        (List.replicate (q.width * q.height * q.colors.channels) 0) =
        .ok (q, pixels) := by
  obtain ⟨w, h, c⟩ := q
  dsimp only at hw hh hlen ⊢
  have hch0 : 0 < c.channels := by cases c <;> decide
  have hlim : (Qoi.mk w h c).encoded_size_limit =
      w * h * (c.channels + 1) + 14 + 8 := by
    cases c <;>
      simp [Qoi.encoded_size_limit, Colors.channels, Colors.has_alpha,
        QOI_HEADER_SIZE, QOI_PADDING]
  have hvalid := readPixels_valid c.has_alpha pixels hbytes
  have hpslen : (readPixels c.has_alpha pixels).length = w * h := by
    rcases c <;>
      simp only [Colors.has_alpha, Colors.channels, readPixels_length_false,
        readPixels_length_true] at hlen ⊢ <;>
      omega
  unfold Qoi.encode
  rw [if_neg (by
    rw [List.length_replicate, hlim]
    simp only [QOI_HEADER_SIZE]
    omega)]
  dsimp only
  rw [if_pos (by rw [headerBytes_fst]; omega)]
  rw [show pixels.take (w * h * (Colors.headerBytes c).1) = pixels by
    rw [headerBytes_fst, ← hlen]
    exact List.take_length pixels]
  obtain ⟨body, eIdxF, prevF, runF, hok, hb⟩ :=
    encode_range_total c.has_alpha (readPixels c.has_alpha pixels)
      encInit Px.newOpaque 0
      ((List.replicate (Qoi.mk w h c).encoded_size_limit (0 : Nat)).length
        - QOI_HEADER_SIZE)
      (by
        rw [List.length_replicate, hlim, hpslen, channels_add_one,
          Nat.mul_comm (c.channels + 1) (w * h)]
        simp only [QOI_HEADER_SIZE]
        omega)
  rw [hok]
  dsimp only
  rw [if_neg (by
    rw [hpslen, channels_add_one, Nat.mul_comm (c.channels + 1) (w * h)] at hb
    rw [List.length_replicate, hlim]
    simp only [QOI_HEADER_SIZE, QOI_PADDING]
    omega)]
  refine ⟨_, _, rfl, ?_⟩
  have htake : (qoiMagicBytes ++ be32 w ++ be32 h ++
      [(Colors.headerBytes c).1, (Colors.headerBytes c).2] ++ body ++ endMarker ++
      List.drop (QOI_HEADER_SIZE + body.length + QOI_PADDING)
        (List.replicate (Qoi.mk w h c).encoded_size_limit 0)).take
      (body.length + QOI_PADDING + QOI_HEADER_SIZE) =
      0x71 :: 0x6F :: 0x69 :: 0x66 ::
        (w / 16777216 % 256) :: (w / 65536 % 256) :: (w / 256 % 256) :: (w % 256) ::
        (h / 16777216 % 256) :: (h / 65536 % 256) :: (h / 256 % 256) :: (h % 256) ::
        (Colors.headerBytes c).1 :: (Colors.headerBytes c).2 ::
        (body ++ endMarker) := by
    rw [show qoiMagicBytes ++ be32 w ++ be32 h ++
        [(Colors.headerBytes c).1, (Colors.headerBytes c).2] ++ body ++ endMarker ++
        List.drop (QOI_HEADER_SIZE + body.length + QOI_PADDING)
          (List.replicate (Qoi.mk w h c).encoded_size_limit 0) =
        ((qoiMagicBytes ++ be32 w ++ be32 h ++
          [(Colors.headerBytes c).1, (Colors.headerBytes c).2] ++ body) ++
          endMarker) ++
        List.drop (QOI_HEADER_SIZE + body.length + QOI_PADDING)
          (List.replicate (Qoi.mk w h c).encoded_size_limit 0) by
      simp [List.append_assoc]]
    rw [List.take_left' (by
      simp [endMarker, qoiMagicBytes, be32, QOI_PADDING, QOI_HEADER_SIZE])]
    simp [qoiMagicBytes, be32, List.append_assoc]
  rw [htake]
  have hdr := decode_header_cons w h hw hh c (body ++ endMarker)
  have hdrop : (0x71 :: 0x6F :: 0x69 :: 0x66 ::
      (w / 16777216 % 256) :: (w / 65536 % 256) :: (w / 256 % 256) :: (w % 256) ::
      (h / 16777216 % 256) :: (h / 65536 % 256) :: (h / 256 % 256) :: (h % 256) ::
      (Colors.headerBytes c).1 :: (Colors.headerBytes c).2 ::
      (body ++ endMarker)).drop QOI_HEADER_SIZE = body ++ endMarker := rfl
  by_cases hz : w = 0 ∨ h = 0
  · have hpix : pixels = [] := by
      have hl0 : pixels.length = 0 := by
        rw [hlen]
        rcases hz with hz | hz <;> rw [hz] <;> simp
      exact List.eq_nil_of_length_eq_zero hl0
    have h0 : w * h * c.channels = 0 := by
      rcases hz with hz | hz <;> rw [hz] <;> simp
    refine decode_via _ _ _ _ hdr ?_
    rw [hdrop, decode_skip_header_zero _ _ _ hz, h0, hpix]
    rfl
  · obtain ⟨dIdxF, hdec, _⟩ :=
      encodeDecodeSim c.has_alpha (readPixels c.has_alpha pixels) encInit
        (decInit c.has_alpha) Px.newOpaque 0 _ body eIdxF prevF runF hok
        (TableRel_init c.has_alpha)
        (Or.inr ⟨rfl, rfl⟩)
        ⟨by decide, by decide, by decide, by decide⟩
        (fun _ => rfl)
        (Nat.zero_le 61)
        (fun h0 => absurd rfl h0)
        hvalid
        endMarker
    simp only [Nat.zero_add, List.replicate_zero, List.nil_append, hpslen] at hdec
    have hdl : Qoi.decode_range c.has_alpha (decInit c.has_alpha) Px.newOpaque 0
        (body ++ endMarker) ((Qoi.mk w h c).decoded_size / c.channels) =
        .ok (readPixels c.has_alpha pixels, dIdxF, prevF, 0, endMarker) := by
      rw [decode_range_zero]
      rw [show (Qoi.mk w h c).decoded_size / c.channels = w * h by
        cases c <;> simp [Qoi.decoded_size, Colors.channels] <;> omega]
      exact hdec
    refine decode_via _ _ _ _ hdr ?_
    rw [hdrop]
    have hskip := decode_skip_header_ok (Qoi.mk w h c) (body ++ endMarker)
        (List.replicate (w * h * c.channels) 0) hz
        (by simp [Qoi.decoded_size])
        (readPixels c.has_alpha pixels) dIdxF prevF 0 endMarker hdl
    rw [hskip]
    dsimp only
    have hwr : writePixels c.has_alpha (readPixels c.has_alpha pixels) =
        pixels := by
      rcases c <;>
        simp only [Colors.has_alpha, Colors.channels] at hlen ⊢ <;>
        first
          | exact write_read_false pixels (by omega)
          | exact write_read_true pixels (by omega)
    rw [hwr]
    rw [show (List.replicate (w * h * c.channels) (0 : Nat)).drop
        ((Qoi.mk w h c).decoded_size) = [] by
      simp [Qoi.decoded_size, List.drop_replicate]]
    rw [List.append_nil]

theorem c1_round_trip_w :
    (⟨1, 1, Colors.Rgb⟩ : Qoi).width < 4294967296 ∧
    (⟨1, 1, Colors.Rgb⟩ : Qoi).height < 4294967296 ∧
    ([10, 20, 30] : List Nat).length =
      (⟨1, 1, Colors.Rgb⟩ : Qoi).width * (⟨1, 1, Colors.Rgb⟩ : Qoi).height *
        (⟨1, 1, Colors.Rgb⟩ : Qoi).colors.channels ∧
    (∀ b ∈ ([10, 20, 30] : List Nat), b < 256) ∧
    ∃ out size,
      Qoi.encode ⟨1, 1, Colors.Rgb⟩ [10, 20, 30]
        (List.replicate (Qoi.encoded_size_limit ⟨1, 1, Colors.Rgb⟩) 0) =
        .ok (out, size) ∧
      Qoi.decode (out.take size)
        (List.replicate ((⟨1, 1, Colors.Rgb⟩ : Qoi).width *
          (⟨1, 1, Colors.Rgb⟩ : Qoi).height *
          (⟨1, 1, Colors.Rgb⟩ : Qoi).colors.channels) 0) =
        .ok (⟨1, 1, Colors.Rgb⟩, [10, 20, 30]) :=
  ⟨by decide, by decide, by decide, by decide,
    c1_round_trip ⟨1, 1, Colors.Rgb⟩ [10, 20, 30] (by decide) (by decide)
      (by decide) (by decide)⟩

/-- C9: a pending run of exactly one pixel is flushed by `encFlush` as a
one-byte INDEX chunk addressing hash(px_prev), except when that hash is
0x35 and table slot 0x35 still holds the all-zero entry, in which case the
byte is QOI_OP_RUN with value 0 (a run of length 1); under the invariants
that hold in every reachable encoder state (decoder table related to the
encoder table, px_prev stored at its slot or still the initial state,
alpha convention), the flush byte decodes to exactly one copy of the
previous pixel, so the decoded output is unchanged. -/
theorem c9_run1_index_flush (alpha : Bool) (eIdx dIdx : Table) (prev : Px)
    (hrel : TableRel alpha eIdx dIdx) (hep : EncPrevInv alpha eIdx prev)
    (hpa : PxA alpha prev) :
    encFlush alpha eIdx prev 1 =
      (if (prev.rgba alpha).hash = 0x35 ∧ eIdx 0x35 = Px.new then [0xC0]
       else [(prev.rgba alpha).hash]) ∧
    (¬ ((prev.rgba alpha).hash = 0x35 ∧ eIdx 0x35 = Px.new) →
      encFlush alpha eIdx prev 1 = [(prev.rgba alpha).hash] ∧
      (prev.rgba alpha).hash < 0x40) ∧
    ∀ (m : Nat) (more : List Nat),
      decodeLoop alpha dIdx prev (1 + m + 1) (encFlush alpha eIdx prev 1 ++ more) =
        (decodeLoop alpha dIdx prev (m + 1) more).map (dprep [prev]) := by
  refine ⟨?_, ?_, ?_⟩
  · unfold encFlush
    rw [if_neg (by omega), if_pos rfl]
  · intro hn
    constructor
    · unfold encFlush
      rw [if_neg (by omega), if_pos rfl, if_neg hn]
    · exact Px.hash_lt _
  · intro m more
    have hflush := decode_flush alpha eIdx dIdx prev 1 m more hrel hep hpa
      (by omega)
    simpa using hflush

theorem c9_run1_index_flush_w :
    TableRel false (tset encInit 9 ⟨10, 20, 30, 255⟩)
      (tset (decInit false) 9 ⟨10, 20, 30, 255⟩) ∧
    EncPrevInv false (tset encInit 9 ⟨10, 20, 30, 255⟩) ⟨10, 20, 30, 255⟩ ∧
    PxA false ⟨10, 20, 30, 255⟩ ∧
    (encFlush false (tset encInit 9 ⟨10, 20, 30, 255⟩) ⟨10, 20, 30, 255⟩ 1 =
      (if (Px.rgba false ⟨10, 20, 30, 255⟩).hash = 0x35 ∧
          tset encInit 9 ⟨10, 20, 30, 255⟩ 0x35 = Px.new then [0xC0]
       else [(Px.rgba false ⟨10, 20, 30, 255⟩).hash]) ∧
     (¬ ((Px.rgba false ⟨10, 20, 30, 255⟩).hash = 0x35 ∧
          tset encInit 9 ⟨10, 20, 30, 255⟩ 0x35 = Px.new) →
       encFlush false (tset encInit 9 ⟨10, 20, 30, 255⟩) ⟨10, 20, 30, 255⟩ 1 =
         [(Px.rgba false ⟨10, 20, 30, 255⟩).hash] ∧
       (Px.rgba false ⟨10, 20, 30, 255⟩).hash < 0x40) ∧
     ∀ (m : Nat) (more : List Nat),
       decodeLoop false (tset (decInit false) 9 ⟨10, 20, 30, 255⟩)
           ⟨10, 20, 30, 255⟩ (1 + m + 1)
           (encFlush false (tset encInit 9 ⟨10, 20, 30, 255⟩)
             ⟨10, 20, 30, 255⟩ 1 ++ more) =
         (decodeLoop false (tset (decInit false) 9 ⟨10, 20, 30, 255⟩)
             ⟨10, 20, 30, 255⟩ (m + 1) more).map (dprep [⟨10, 20, 30, 255⟩])) := by
  have hrel : TableRel false (tset encInit 9 ⟨10, 20, 30, 255⟩)
      (tset (decInit false) 9 ⟨10, 20, 30, 255⟩) := by
    intro i hi
    by_cases h9 : i = 9 <;>
      simp [tset, h9, decInit, encInit, Px.rgba, Px.new]
  have hep : EncPrevInv false (tset encInit 9 ⟨10, 20, 30, 255⟩)
      ⟨10, 20, 30, 255⟩ := Or.inl (by decide)
  exact ⟨hrel, hep, fun _ => rfl,
    c9_run1_index_flush false (tset encInit 9 ⟨10, 20, 30, 255⟩)
      (tset (decInit false) 9 ⟨10, 20, 30, 255⟩) ⟨10, 20, 30, 255⟩
      hrel hep (fun _ => rfl)⟩

/-- C7: the encoder table is written at slot hash(p) exactly when pixel p
is emitted via a DIFF, LUMA, RGB or RGBA chunk (an INDEX hit leaves it
unchanged, and both RUN paths of `encode_range` pass the table through
untouched); the decoder table is written at slot hash(p) exactly when a
pixel p is consumed via a DIFF, LUMA, RGB or RGBA chunk (INDEX and RUN
chunks never modify it); and after any successfully encoded pixel
sequence the decoder reproduces the pixels with a final table related
slot-by-slot to the encoder table. -/
theorem c7_table_update (alpha : Bool) :
    (∀ (idx : Table) (prev px : Px),
      (encChunkOp alpha idx prev px).2 =
        if idx (px.rgba alpha).hash = px.rgba alpha then idx
        else tset idx (px.rgba alpha).hash (px.rgba alpha)) ∧
    (∀ (idx : Table) (prev : Px) (run cap : Nat) (px : Px) (tail : List Px),
      7 < cap → pxEq alpha px prev →
      ((run = 61 ∨ tail = []) →
        Qoi.encode_range alpha idx prev run cap (px :: tail) =
          (Qoi.encode_range alpha idx prev 0 (cap - 1) tail).map
            (eprep [0xC0 + run])) ∧
      (¬ (run = 61 ∨ tail = []) →
        Qoi.encode_range alpha idx prev run cap (px :: tail) =
          Qoi.encode_range alpha idx prev (run + 1) cap tail)) ∧
    (∀ (idx : Table) (px : Px) (n b1 : Nat) (rest : List Nat), b1 < 0x40 →
      decodeLoop alpha idx px (n + 1) (b1 :: rest) =
        (decodeLoop alpha idx (idx b1) n rest).map (dprep [idx b1])) ∧
    (∀ (idx : Table) (px : Px) (n b1 : Nat) (rest : List Nat),
      0xC0 ≤ b1 → b1 ≤ 0xFD → b1 % 64 ≤ n →
      decodeLoop alpha idx px (n + 1) (b1 :: rest) =
        (decodeLoop alpha idx px (n - b1 % 64) rest).map
          (dprep (px :: List.replicate (b1 % 64) px))) ∧
    (∀ (idx : Table) (px : Px) (n b1 : Nat) (rest : List Nat),
      0x40 ≤ b1 → b1 < 0x80 →
      decodeLoop alpha idx px (n + 1) (b1 :: rest) =
        (let px' := px.addRgb (wsub (b1 / 16 % 4) 2) (wsub (b1 / 4 % 4) 2)
          (wsub (b1 % 4) 2)
        (decodeLoop alpha (tset idx (px'.rgba alpha).hash px') px' n rest).map
          (dprep [px']))) ∧
    (∀ (idx : Table) (px : Px) (n b1 b2 : Nat) (rest : List Nat),
      0x80 ≤ b1 → b1 < 0xC0 →
      decodeLoop alpha idx px (n + 1) (b1 :: b2 :: rest) =
        (let px' := px.addRgb (wadd (wsub (b2 / 16 % 16) 8) (wsub (b1 % 64) 32))
          (wsub (b1 % 64) 32) (wadd (wsub (b2 % 16) 8) (wsub (b1 % 64) 32))
        (decodeLoop alpha (tset idx (px'.rgba alpha).hash px') px' n rest).map
          (dprep [px']))) ∧
    (∀ (idx : Table) (px : Px) (n b2 b3 b4 : Nat) (rest : List Nat),
      decodeLoop alpha idx px (n + 1) (0xFE :: b2 :: b3 :: b4 :: rest) =
        (let px' := px.setRgb b2 b3 b4
        (decodeLoop alpha (tset idx (px'.rgba alpha).hash px') px' n rest).map
          (dprep [px']))) ∧
    (∀ (idx : Table) (px : Px) (n b2 b3 b4 b5 : Nat) (rest : List Nat),
      decodeLoop alpha idx px (n + 1) (0xFF :: b2 :: b3 :: b4 :: b5 :: rest) =
        (let px' := if alpha then Px.setRgba b2 b3 b4 b5 else px.setRgb b2 b3 b4
        (decodeLoop alpha (tset idx (px'.rgba alpha).hash px') px' n rest).map
          (dprep [px']))) ∧
    (∀ (ps : List Px) (eIdx dIdx : Table) (prev : Px) (cap : Nat)
      (body : List Nat) (eIdxF : Table) (prevF : Px) (runF : Nat),
      Qoi.encode_range alpha eIdx prev 0 cap ps = .ok (body, eIdxF, prevF, runF) →
      TableRel alpha eIdx dIdx → EncPrevInv alpha eIdx prev →
      PxV prev → PxA alpha prev → (∀ p ∈ ps, PxV p ∧ PxA alpha p) →
      ∀ extra : List Nat, ∃ dIdxF : Table,
        decodeLoop alpha dIdx prev ps.length (body ++ extra) =
          .ok (ps, dIdxF, prevF, 0, extra) ∧
        TableRel alpha eIdxF dIdxF) := by
  refine ⟨encChunkOp_snd alpha, ?_, decodeLoop_index alpha, ?_,
    decodeLoop_diff alpha, decodeLoop_luma alpha, decodeLoop_rgb alpha,
    decodeLoop_rgba alpha, ?_⟩
  · intro idx prev run cap px tail h1 h2
    exact ⟨fun h3 => encode_range_run_emit alpha idx prev run cap px tail h1 h2 h3,
      fun h3 => encode_range_run_acc alpha idx prev run cap px tail h1 h2 h3⟩
  · intro idx px n b1 rest h1 h2 h3
    exact decodeLoop_run alpha idx px n b1 rest h1 h2 h3
  · intro ps eIdx dIdx prev cap body eIdxF prevF runF hok hrel hep hpv hpa hval extra
    have hsim := encodeDecodeSim alpha ps eIdx dIdx prev 0 cap body eIdxF prevF
      runF hok hrel hep hpv hpa (by omega) (fun h0 => absurd rfl h0) hval extra
    simpa using hsim

theorem c7_table_update_w :
    (5 : Nat) < 0x40 ∧
    decodeLoop false (decInit false) Px.newOpaque (0 + 1) [5] =
      (decodeLoop false (decInit false) (decInit false 5) 0 []).map
        (dprep [decInit false 5]) :=
  ⟨by decide,
    (c7_table_update false).2.2.1 (decInit false) Px.newOpaque 0 5 [] (by decide)⟩
